import Mathlib

/-!
# MDSP assembler back end (`sources/asm/assembler.cpp`)

A shallow embedding of `Assembler::run`, `Assembler::encodeOperation` and
`Assembler::getGprNum`, followed by theorems about them.

Conventions of the embedding.

* `assert( c)` is taken with assertions enabled: a failed assertion ends the
  run.  A bare `throw;` with no exception in flight ends the run as well.
  Both are embedded as `Except.error e`, where `e` names the kind of
  violation found at that place of the source.
* `unsigned int` and `int` are 32 bits wide.  Values are `Nat`/`Int`, with
  an explicit `% 2 ^ 32` wherever the source computes in `unsigned int`.
* `std::map` is an association list kept in ascending key order, so that
  iteration visits the keys in the order `std::map` does.
* `SemanticUnit *` is an address (`Ptr`); the objects live in a heap
  `Ptr → SemanticUnit`.
-/

namespace Mdsp

/-- Equality of results is decidable when it is for errors and values. -/
instance instDecidableEqExcept {ε α : Type} [DecidableEq ε] [DecidableEq α] :
    DecidableEq (Except ε α)
  | .ok a, .ok b =>
    if h : a = b then isTrue (by rw [h]) else isFalse (fun h' => h (by cases h'; rfl))
  | .error a, .error b =>
    if h : a = b then isTrue (by rw [h]) else isFalse (fun h' => h (by cases h'; rfl))
  | .ok _, .error _ => isFalse (fun h => by cases h)
  | .error _, .ok _ => isFalse (fun h => by cases h)

/-! ## Machine integers -/

/-- Conversion `(int)n` of an unsigned size to a 32-bit `int`
(reduction modulo `2 ^ 32` into the signed range). -/
def castInt (n : Nat) : Int :=
  if n % 2 ^ 32 < 2 ^ 31 then ((n % 2 ^ 32 : Nat) : Int)
  else ((n % 2 ^ 32 : Nat) : Int) - 2 ^ 32

/-- Number of iterations of `for ( int i = 0; i < (int)n; i ++)`. -/
def loopCount (n : Nat) : Nat := (castInt n).toNat

/-! ## `std::map` -/

/-- A `std::map`: entries in ascending key order. -/
abbrev StdMap (κ υ : Type) := List (κ × υ)

namespace StdMap

variable {κ υ : Type}

/-- Lookup `m.find( k)`: `none` stands for `m.end()`. -/
def find [DecidableEq κ] : StdMap κ υ → κ → Option υ
  | [], _ => none
  | (k', v) :: m, k => if k' = k then some v else find m k

/-- Assignment `m[k] = v`: overwrites the entry of `k` when there is one,
otherwise adds the entry at its place in key order. -/
def insert [DecidableEq κ] [LT κ] [DecidableRel (fun a b : κ => a < b)]
    : StdMap κ υ → κ → υ → StdMap κ υ
  | [], k, v => [(k, v)]
  | (k', v') :: m, k, v =>
    if k' = k then (k, v) :: m
    else if k < k' then (k, v) :: (k', v') :: m
    else (k', v') :: insert m k v

end StdMap

/-! ## Data model: units, operands, instructions -/

/-- A `SemanticUnit *`. -/
abbrev Ptr := Nat

/-- Modelled from the spec: the unit kinds returned by `SemanticUnit::type()`
(the enumeration is declared in a header that is not part of the sources at
hand; the spec has the two kinds Label and Operation). -/
inductive UnitType where
  | UNIT_LABEL
  | UNIT_OPERATION
  deriving DecidableEq, Repr

/-- Modelled from the spec: an operand of an operation.  Exactly one
classification holds; a register operand carries its identifier string, a
constant operand carries a signed value. -/
inductive Operand where
  | directGpr (id : String)
  | indirectGpr (id : String)
  | constInt (value : Int)
  deriving DecidableEq, Repr

namespace Operand

/-- Query `isDirectGpr()`. -/
def isDirectGpr : Operand → Bool
  | directGpr _ => true
  | _ => false

/-- Query `isIndirectGpr()`. -/
def isIndirectGpr : Operand → Bool
  | indirectGpr _ => true
  | _ => false

/-- Query `isConstInt()`. -/
def isConstInt : Operand → Bool
  | constInt _ => true
  | _ => false

/-- Query `isDirectOrIndirectGpr()`. -/
def isDirectOrIndirectGpr (o : Operand) : Bool :=
  o.isDirectGpr || o.isIndirectGpr

/-- Accessor `str()`: the register identifier.  The source reads it only from
register operands; the value given for a constant is never used. -/
def str : Operand → String
  | directGpr id => id
  | indirectGpr id => id
  | constInt _ => ""

/-- Accessor `integer()`: the constant.  The source reads it only from
constant operands; the value given for a register is never used. -/
def integer : Operand → Int
  | constInt v => v
  | _ => 0

end Operand

/-- Modelled from the spec: a `SemanticUnit` as seen through `type()`, `str()`
(label identifier or mnemonic), `nOperands()` and `operator[]`. -/
structure SemanticUnit where
  type : UnitType
  str : String
  operands : List Operand
  deriving DecidableEq, Repr

namespace SemanticUnit

/-- Count `nOperands()`. -/
def nOperands (u : SemanticUnit) : Nat := u.operands.length

/-- Access `(*operation)[i]`; the source only reads positions below
`nOperands()`. -/
def operand (u : SemanticUnit) (i : Nat) : Operand :=
  u.operands.getD i (Operand.constInt 0)

end SemanticUnit

/-- Modelled from the spec: the sub-opcode constants used by the encoder
(declared in `operation.h`, which is not part of the sources at hand). -/
inductive OperCode where
  | NOP
  | ADD
  | BRM
  | BRR
  | LD
  deriving DecidableEq, Repr

/-- Modelled from the spec: the state of an `Operation` object after the one
`setMOVE` or `setALU` call made on it: the format and the field values
passed. -/
inductive Operation where
  | setMOVE (opcode : OperCode) (sd imm16 rs1 rd : Nat)
  | setALU (opcode0 opcode1 opcode2 : OperCode) (am imm10 rs1 rs2 rd : Nat)
  deriving DecidableEq, Repr

/-- A `ByteLine`: the bytes of one encoded instruction. -/
abbrev ByteLine := List Nat

/-- The kinds of violation that end a run. -/
inductive AsmError where
  | UnsupportedOperation
  | InvalidOperandCombination
  | ImmediateOutOfRange
  | InvalidRegisterId
  | DuplicateWordAddress
  | DuplicateByteAddress
  | NotAnOperation
  deriving DecidableEq, Repr

/-! ## `Assembler::getGprNum` -/

/-- Character `id[i]` of a `std::string`; position `size()` reads as `'\0'`. -/
def charAt (id : String) (i : Nat) : Char := id.data.getD i (Char.ofNat 0)

/-- The C function `isdigit` on a character. -/
def isdigit (c : Char) : Bool := decide (48 ≤ c.toNat ∧ c.toNat ≤ 57)

/-- The value `c - '0'`, for a digit `c`. -/
def digitVal (c : Char) : Nat := c.toNat - 48

/-- The method `Assembler::getGprNum`. -/
def getGprNum (id : String) : Except AsmError Nat :=
  if ¬ (charAt id 0 = '%' ∧ charAt id 1 = 'r') then
    .error .InvalidRegisterId
  else if ¬ isdigit (charAt id 2) then
    .error .InvalidRegisterId
  else if id.length = 3 then
    .ok (digitVal (charAt id 2))
  else if id.length = 4 then
    if ¬ isdigit (charAt id 3) then
      .error .InvalidRegisterId
    else
      let x := 10 * digitVal (charAt id 2) + digitVal (charAt id 3)
      if ¬ x ≤ 31 then .error .InvalidRegisterId
      else .ok x
  else
    .error .InvalidRegisterId

/-! ## `Assembler::encodeOperation` -/

/-- The method `Assembler::encodeOperation`.  The parameter `encode` stands
for `Operation::encode` (defined outside the sources at hand), which turns
the fields set on the `Operation` object into a `ByteLine`.  The two
`getGprNum` calls in an argument list fail with the same kind of error, so
their order of evaluation does not show. -/
def encodeOperation (encode : Operation → ByteLine)
    (operation : SemanticUnit) (pc : Nat) : Except AsmError ByteLine :=
  let _ := pc
  if operation.type ≠ .UNIT_OPERATION then
    .error .NotAnOperation
  else if operation.str = "brm" then
    if operation.nOperands ≠ 2 then
      .error .InvalidOperandCombination
    else do
      let sd : Nat ←
        if (operation.operand 0).isIndirectGpr ∧ (operation.operand 1).isDirectGpr then
          pure 1
        else if (operation.operand 0).isDirectGpr ∧ (operation.operand 1).isIndirectGpr then
          pure 0
        else
          .error .InvalidOperandCombination
      let r0 ← getGprNum (operation.operand 0).str
      let r1 ← getGprNum (operation.operand 1).str
      pure (encode (.setMOVE .BRM sd 0 r0 r1))
  else if operation.str = "brr" then
    if operation.nOperands ≠ 2 then
      .error .InvalidOperandCombination
    else if ¬ ((operation.operand 0).isDirectGpr ∧ (operation.operand 1).isDirectGpr) then
      .error .InvalidOperandCombination
    else do
      let r0 ← getGprNum (operation.operand 0).str
      let r1 ← getGprNum (operation.operand 1).str
      pure (encode (.setMOVE .BRR 0 0 r0 r1))
  else if operation.str = "ld" then
    if operation.nOperands ≠ 2 then
      .error .InvalidOperandCombination
    else if ¬ (operation.operand 0).isConstInt then
      .error .InvalidOperandCombination
    else do
      let sd : Nat ←
        if (operation.operand 1).isDirectGpr then
          pure 0
        else if (operation.operand 1).isIndirectGpr then
          pure 1
        else
          .error .InvalidOperandCombination
      let imm : Int := (operation.operand 0).integer
      if ¬ (imm ≥ 0 ∧ imm ≤ 0xffff) then
        .error .ImmediateOutOfRange
      else do
        let imm16 : Nat := (imm % 2 ^ 16).toNat
        let r1 ← getGprNum (operation.operand 1).str
        pure (encode (.setMOVE .LD sd imm16 0 r1))
  else if operation.str = "add" then
    if operation.nOperands = 3 then
      if ¬ (operation.operand 0).isDirectOrIndirectGpr then
        .error .InvalidOperandCombination
      else if ¬ (operation.operand 1).isDirectOrIndirectGpr then
        .error .InvalidOperandCombination
      else if ¬ (operation.operand 2).isDirectOrIndirectGpr then
        .error .InvalidOperandCombination
      else do
        let rs1 := (← getGprNum (operation.operand 0).str) % 2 ^ 8
        let rs2 := (← getGprNum (operation.operand 1).str) % 2 ^ 8
        let rd := (← getGprNum (operation.operand 2).str) % 2 ^ 8
        let am : Nat ←
          if (operation.operand 0).isDirectGpr ∧ (operation.operand 1).isDirectGpr ∧
              (operation.operand 2).isDirectGpr then
            pure 0
          else if (operation.operand 0).isIndirectGpr ∧ (operation.operand 1).isIndirectGpr ∧
              (operation.operand 2).isIndirectGpr then
            pure 2
          else
            .error .InvalidOperandCombination
        pure (encode (.setALU .NOP .ADD .NOP am 0 rs1 rs2 rd))
    else
      .error .InvalidOperandCombination
  else if operation.str = "nop" then
    if operation.nOperands ≠ 0 then
      .error .InvalidOperandCombination
    else
      pure (encode (.setALU .NOP .NOP .NOP 0 0 0 0 0))
  else
    .error .UnsupportedOperation

/-! ## `Assembler::run` -/

/-- The variables of the first loop of `run`: the counter `pc` and the two
tables `unit_addr` and `label_addr`. -/
structure Layout where
  pc : Nat
  unit_addr : StdMap Ptr Nat
  label_addr : StdMap String Nat
  deriving DecidableEq, Repr

/-- Body of the first loop of `run`, for the unit `u = units[i]`. -/
def layoutStep (heap : Ptr → SemanticUnit) (st : Layout) (u : Ptr) : Layout :=
  let unit_addr := StdMap.insert st.unit_addr u st.pc
  if (heap u).type = .UNIT_LABEL then
    { pc := st.pc, unit_addr := unit_addr,
      label_addr := StdMap.insert st.label_addr (heap u).str st.pc }
  else if (heap u).type = .UNIT_OPERATION then
    { pc := (st.pc + 1) % 2 ^ 32, unit_addr := unit_addr, label_addr := st.label_addr }
  else
    { pc := st.pc, unit_addr := unit_addr, label_addr := st.label_addr }

/-- The first loop of `run` (layout pass) over the units it visits. -/
def layoutLoop (heap : Ptr → SemanticUnit) (visited : List Ptr) : Layout :=
  visited.foldl (layoutStep heap) { pc := 0, unit_addr := [], label_addr := [] }

/-- Body of the second loop of `run`, for the unit `u = units[i]`. -/
def encodeStep (encode : Operation → ByteLine) (heap : Ptr → SemanticUnit)
    (unit_addr : StdMap Ptr Nat) (op_list : StdMap Nat ByteLine) (u : Ptr) :
    Except AsmError (StdMap Nat ByteLine) :=
  if (heap u).type = .UNIT_OPERATION then
    let pc := (StdMap.find unit_addr u).getD 0
    if (StdMap.find op_list pc).isSome then
      .error .DuplicateWordAddress
    else do
      let bytes ← encodeOperation encode (heap u) pc
      pure (StdMap.insert op_list pc bytes)
  else
    pure op_list

/-- The second loop of `run` over the units it visits. -/
def encodeLoop (encode : Operation → ByteLine) (heap : Ptr → SemanticUnit)
    (unit_addr : StdMap Ptr Nat) (visited : List Ptr) :
    Except AsmError (StdMap Nat ByteLine) :=
  visited.foldlM (encodeStep encode heap unit_addr) []

/-- Body of the inner loop of the third loop of `run`: byte `i` of the line. -/
def writeByte (start_addr : Nat) (bytes : ByteLine) (addr_byte : StdMap Nat Nat) (i : Nat) :
    Except AsmError (StdMap Nat Nat) :=
  if (StdMap.find addr_byte ((start_addr + i) % 2 ^ 32)).isSome then
    .error .DuplicateByteAddress
  else
    pure (StdMap.insert addr_byte ((start_addr + i) % 2 ^ 32) (bytes.getD i 0))

/-- Body of the third loop of `run`, for the entry `op` of `op_list`. -/
def writeLine (addr_byte : StdMap Nat Nat) (op : Nat × ByteLine) :
    Except AsmError (StdMap Nat Nat) :=
  let start_addr := (op.1 * 4) % 2 ^ 32
  (List.range (loopCount op.2.length)).foldlM (writeByte start_addr op.2) addr_byte

/-- The third loop of `run`: the entries of `op_list` in key order. -/
def imageLoop (op_list : StdMap Nat ByteLine) : Except AsmError (StdMap Nat Nat) :=
  op_list.foldlM writeLine []

/-- The units reached by `for ( int i = 0; i < (int)units.size(); i ++)`. -/
def visitedUnits (units : List Ptr) : List Ptr :=
  units.take (loopCount units.length)

/-- The tables of `run` on `units` when its first loop is over. -/
def layoutPass (heap : Ptr → SemanticUnit) (units : List Ptr) : Layout :=
  layoutLoop heap (visitedUnits units)

/-- The method `Assembler::run` on the unit sequence `units`; `heap` gives the
object behind each pointer of the sequence. -/
def run (encode : Operation → ByteLine) (heap : Ptr → SemanticUnit) (units : List Ptr) :
    Except AsmError (StdMap Nat Nat) :=
  do
    let op_list ← encodeLoop encode heap (layoutPass heap units).unit_addr (visitedUnits units)
    imageLoop op_list

/-! ## Vocabulary of the statements -/

/-- Whether the unit behind `u` is an Operation. -/
def isOperation (heap : Ptr → SemanticUnit) (u : Ptr) : Bool :=
  decide ((heap u).type = .UNIT_OPERATION)

/-- Whether the unit behind `u` is a Label. -/
def isLabel (heap : Ptr → SemanticUnit) (u : Ptr) : Bool :=
  decide ((heap u).type = .UNIT_LABEL)

/-- The Operation units of a sequence, in sequence order. -/
def opsOf (heap : Ptr → SemanticUnit) (l : List Ptr) : List Ptr :=
  l.filter (isOperation heap)

/-- The number of Operation units of a sequence. -/
def countOps (heap : Ptr → SemanticUnit) (l : List Ptr) : Nat :=
  (opsOf heap l).length

/-- The word address recorded in `unit_addr` for the unit at position `i` of
`units` when the first loop of `run` is over. -/
def unitAddrAt (heap : Ptr → SemanticUnit) (units : List Ptr) (i : Nat) : Option Nat :=
  match units[i]? with
  | none => none
  | some u => StdMap.find (layoutPass heap units).unit_addr u

/-- The bytes that `encodeOperation` produces for the unit behind `u` (no
bytes when it fails). -/
def lineOf (encode : Operation → ByteLine) (heap : Ptr → SemanticUnit) (u : Ptr) : ByteLine :=
  match encodeOperation encode (heap u) 0 with
  | .ok bytes => bytes
  | .error _ => []

/-- The encodings of the Operation units of a sequence, in sequence order. -/
def linesOf (encode : Operation → ByteLine) (heap : Ptr → SemanticUnit) (l : List Ptr) :
    List ByteLine :=
  (opsOf heap l).map (lineOf encode heap)

/-- The sequence with every Label unit removed. -/
def removeLabels (heap : Ptr → SemanticUnit) (l : List Ptr) : List Ptr :=
  l.filter (fun u => !isLabel heap u)

/-- What an operand contributes to an instruction: its classification,
with the register index its identifier resolves to (the result of
`getGprNum`) or its immediate value. -/
inductive OperandInfo where
  | direct (index : Except AsmError Nat)
  | indirect (index : Except AsmError Nat)
  | const (value : Int)
  deriving DecidableEq

/-- The contribution of an operand. -/
def operandInfo : Operand → OperandInfo
  | .directGpr id => .direct (getGprNum id)
  | .indirectGpr id => .indirect (getGprNum id)
  | .constInt v => .const v

/-- The mnemonic and the operand contributions that a set of instruction
fields stands for (read back from the fields alone). -/
def decodeFields : Operation → String × List OperandInfo
  | .setMOVE .BRM sd _ rs1 rd =>
    ("brm", if sd = 1 then [.indirect (.ok rs1), .direct (.ok rd)]
      else [.direct (.ok rs1), .indirect (.ok rd)])
  | .setMOVE .BRR _ _ rs1 rd => ("brr", [.direct (.ok rs1), .direct (.ok rd)])
  | .setMOVE .LD sd imm16 _ rd =>
    ("ld", [.const (imm16 : Int), if sd = 0 then .direct (.ok rd) else .indirect (.ok rd)])
  | .setMOVE _ _ _ _ _ => ("", [])
  | .setALU _ .ADD _ am _ rs1 rs2 rd =>
    ("add", if am = 0 then [.direct (.ok rs1), .direct (.ok rs2), .direct (.ok rd)]
      else [.indirect (.ok rs1), .indirect (.ok rs2), .indirect (.ok rd)])
  | .setALU _ .NOP _ _ _ _ _ _ => ("nop", [])
  | .setALU _ _ _ _ _ _ _ _ => ("", [])

/-- Whether a string is `%r` followed by one or two decimal digits whose
value is at most 31. -/
def isRegisterId (id : String) : Bool :=
  match id.data with
  | [a, b, d] => decide (a = '%') && decide (b = 'r') && isdigit d
  | [a, b, d1, d2] =>
    decide (a = '%') && decide (b = 'r') && isdigit d1 && isdigit d2 &&
      decide (10 * digitVal d1 + digitVal d2 ≤ 31)
  | _ => false

/-! ## Sample data used to instantiate the theorems -/

/-- The four bytes of a 32-bit word, least significant first. -/
def bytesOfWord (w : Nat) : ByteLine :=
  [w % 256, w / 256 % 256, w / 65536 % 256, w / 16777216 % 256]

/-- A number for each sub-opcode, for `sampleEncode`. -/
def OperCode.toNat : OperCode → Nat
  | .NOP => 0
  | .ADD => 1
  | .BRM => 2
  | .BRR => 3
  | .LD => 4

/-- A sample of what `Operation::encode` may be: the fields packed into one
32-bit word, serialized to 4 bytes.  It is only used to instantiate theorems
that hold for every encoder. -/
def sampleEncode : Operation → ByteLine
  | .setMOVE opcode sd imm16 rs1 rd =>
    bytesOfWord (opcode.toNat * 2 ^ 28 + sd * 2 ^ 27 + imm16 * 2 ^ 10 + rs1 * 2 ^ 5 + rd)
  | .setALU opcode0 opcode1 opcode2 am imm10 rs1 rs2 rd =>
    bytesOfWord (2 ^ 31 + opcode0.toNat * 2 ^ 30 + opcode1.toNat * 2 ^ 28
      + opcode2.toNat * 2 ^ 27 + am * 2 ^ 25 + imm10 * 2 ^ 15 + rs1 * 2 ^ 10 + rs2 * 2 ^ 5 + rd)

/-- An encoder that lists the format and the fields, one per byte position
(it keeps every field apart, so that equal outputs mean equal fields). -/
def fieldsEncode : Operation → ByteLine
  | .setMOVE opcode sd imm16 rs1 rd => [0, opcode.toNat, sd, imm16, rs1, rd]
  | .setALU opcode0 opcode1 opcode2 am imm10 rs1 rs2 rd =>
    [1, opcode0.toNat, opcode1.toNat, opcode2.toNat, am, imm10, rs1, rs2, rd]

/-- An Operation unit with the given mnemonic and operands. -/
def mkOperation (mnemonic : String) (operands : List Operand) : SemanticUnit :=
  { type := .UNIT_OPERATION, str := mnemonic, operands := operands }

/-- A Label unit with the given identifier. -/
def mkLabel (id : String) : SemanticUnit :=
  { type := .UNIT_LABEL, str := id, operands := [] }

/-- A heap with the label `L` at address 0, `add %r1, %r2, %r3` at address 1
and `nop` everywhere else. -/
def sampleHeap : Ptr → SemanticUnit
  | 0 => mkLabel "L"
  | 1 => mkOperation "add" [.directGpr "%r1", .directGpr "%r2", .directGpr "%r3"]
  | _ => mkOperation "nop" []

/-- A heap with `nop` at every address. -/
def nopHeap : Ptr → SemanticUnit :=
  fun _ => mkOperation "nop" []

/-- A heap with the label `L` at every address. -/
def labelHeap : Ptr → SemanticUnit :=
  fun _ => mkLabel "L"

/-- A heap where the label `L` is declared twice, by the objects at addresses
0 and 2, with `nop` everywhere else. -/
def twoLabelHeap : Ptr → SemanticUnit
  | 0 => mkLabel "L"
  | 2 => mkLabel "L"
  | _ => mkOperation "nop" []

/-- A heap with `nop` at address 0 and the label `L` everywhere else. -/
def oneOpHeap : Ptr → SemanticUnit
  | 0 => mkOperation "nop" []
  | _ => mkLabel "L"

/-- A heap with the unsupported operation `sub` at address 0 and `nop`
everywhere else. -/
def unsupportedHeap : Ptr → SemanticUnit
  | 0 => mkOperation "sub" []
  | _ => mkOperation "nop" []

/-! ## Theorems -/

/-- A register index returned by `getGprNum` is at most 31. -/
theorem getGprNum_le {id : String} {n : Nat} (h : getGprNum id = .ok n) : n ≤ 31 := by
  unfold getGprNum at h
  simp only [isdigit, digitVal] at h
  split_ifs at h with h1 h2 h3 h4 h5 h6
  · simp at h2
    cases h; omega
  · cases h; omega

/-- The only error of `getGprNum` is `InvalidRegisterId`. -/
theorem getGprNum_error {id : String} {e : AsmError} (h : getGprNum id = .error e) :
    e = .InvalidRegisterId := by
  simp only [getGprNum] at h
  split_ifs at h <;> cases h <;> rfl

/-! ### `std::map` lemmas -/

namespace StdMap

theorem find_insert_self {κ υ : Type} [DecidableEq κ] [LT κ]
    [DecidableRel (fun a b : κ => a < b)] (m : StdMap κ υ) (k : κ) (v : υ) :
    find (insert m k v) k = some v := by
  induction m with
  | nil => simp [insert, find]
  | cons e m ih =>
    obtain ⟨k', v'⟩ := e
    unfold insert
    split_ifs with h1 h2
    · simp [find]
    · simp [find]
    · simp [find, h1, ih]

theorem find_insert_ne {κ υ : Type} [DecidableEq κ] [LT κ]
    [DecidableRel (fun a b : κ => a < b)] (m : StdMap κ υ) {k k2 : κ} (v : υ) (h : k ≠ k2) :
    find (insert m k v) k2 = find m k2 := by
  induction m with
  | nil => simp [insert, find, h]
  | cons e m ih =>
    obtain ⟨k', v'⟩ := e
    unfold insert
    split_ifs with h1 h2
    · subst h1; simp [find, h]
    · simp [find, h]
    · simp [find, ih]

end StdMap

/-! ### The layout pass -/

theorem opsOf_append (heap : Ptr → SemanticUnit) (l1 l2 : List Ptr) :
    opsOf heap (l1 ++ l2) = opsOf heap l1 ++ opsOf heap l2 := by
  simp [opsOf]

theorem countOps_append (heap : Ptr → SemanticUnit) (l1 l2 : List Ptr) :
    countOps heap (l1 ++ l2) = countOps heap l1 + countOps heap l2 := by
  simp [countOps, opsOf_append]

theorem countOps_le_length (heap : Ptr → SemanticUnit) (l : List Ptr) :
    countOps heap l ≤ l.length := by
  simp [countOps, opsOf, List.length_filter_le]

theorem countOps_cons (heap : Ptr → SemanticUnit) (u : Ptr) (l : List Ptr) :
    countOps heap (u :: l) = (if isOperation heap u then 1 else 0) + countOps heap l := by
  by_cases h : isOperation heap u
  · simp [countOps, opsOf, h, List.filter_cons]; omega
  · simp [countOps, opsOf, h, List.filter_cons]

theorem loopCount_of_lt {n : Nat} (h : n < 2 ^ 31) : loopCount n = n := by
  have h1 : n % 2 ^ 32 = n := Nat.mod_eq_of_lt (by omega)
  unfold loopCount castInt
  rw [h1, if_pos h]
  exact Int.toNat_ofNat n

theorem visitedUnits_of_lt {units : List Ptr} (h : units.length < 2 ^ 31) :
    visitedUnits units = units := by
  simp [visitedUnits, loopCount_of_lt h]

/-- The counter after the layout loop, started in state `st`, has advanced by
the number of Operation units (as long as it stays below `2 ^ 32`). -/
theorem layout_foldl_pc (heap : Ptr → SemanticUnit) (l : List Ptr) (st : Layout)
    (h : st.pc + countOps heap l < 2 ^ 32) :
    (l.foldl (layoutStep heap) st).pc = st.pc + countOps heap l := by
  induction l generalizing st with
  | nil => simp [countOps, opsOf]
  | cons u l ih =>
    rw [List.foldl_cons]
    rw [countOps_cons] at h ⊢
    by_cases hop : (heap u).type = .UNIT_OPERATION
    · have hl : (heap u).type ≠ .UNIT_LABEL := by rw [hop]; decide
      have hio : isOperation heap u = true := by simp [isOperation, hop]
      simp only [hio, if_true] at h ⊢
      have hpc : (layoutStep heap st u).pc = st.pc + 1 := by
        simp only [layoutStep, hl, hop, if_true, if_false]
        exact Nat.mod_eq_of_lt (by omega)
      rw [ih _ (by rw [hpc]; omega), hpc]; omega
    · have hio : isOperation heap u = false := by simp [isOperation, hop]
      have hpc : (layoutStep heap st u).pc = st.pc := by
        simp only [layoutStep, hop, if_false]
        split_ifs <;> rfl
      simp only [hio] at h ⊢
      rw [ih _ (by rw [hpc]; simpa using h), hpc]; simp

theorem layoutStep_unit_addr (heap : Ptr → SemanticUnit) (st : Layout) (u : Ptr) :
    (layoutStep heap st u).unit_addr = StdMap.insert st.unit_addr u st.pc := by
  simp only [layoutStep]
  split_ifs <;> rfl

/-- Units that are not visited keep their entry of `unit_addr`. -/
theorem layout_foldl_find_not_mem (heap : Ptr → SemanticUnit) (l : List Ptr) (st : Layout)
    (u : Ptr) (h : u ∉ l) :
    StdMap.find (l.foldl (layoutStep heap) st).unit_addr u = StdMap.find st.unit_addr u := by
  induction l generalizing st with
  | nil => rfl
  | cons w l ih =>
    rw [List.foldl_cons, ih _ (fun hm => h (List.mem_cons_of_mem _ hm)), layoutStep_unit_addr]
    exact StdMap.find_insert_ne _ _ (fun e => h (by simp [e]))

/-- The entry of `unit_addr` for a unit that does not occur again later is the
number of Operation units before it. -/
theorem layoutLoop_find_unit (heap : Ptr → SemanticUnit) (l1 l2 : List Ptr) (u : Ptr)
    (hlen : (l1 ++ u :: l2).length < 2 ^ 32) (h : u ∉ l2) :
    StdMap.find (layoutLoop heap (l1 ++ u :: l2)).unit_addr u = some (countOps heap l1) := by
  have hc := countOps_le_length heap l1
  simp only [List.length_append, List.length_cons] at hlen
  unfold layoutLoop
  rw [List.foldl_append, List.foldl_cons, layout_foldl_find_not_mem _ _ _ _ h,
    layoutStep_unit_addr, StdMap.find_insert_self, layout_foldl_pc _ _ _ (by simp; omega)]
  simp

theorem split_at (units : List Ptr) (i : Nat) (hi : i < units.length) :
    units = units.take i ++ units[i] :: units.drop (i + 1) := by
  rw [List.getElem_cons_drop, List.take_append_drop]

theorem not_mem_drop_of_nodup {units : List Ptr} (hnd : units.Nodup) (i : Nat)
    (hi : i < units.length) : units[i] ∉ units.drop (i + 1) := by
  have h := split_at units i hi
  rw [h] at hnd
  have h2 := (List.nodup_append.1 hnd).2.1
  exact (List.nodup_cons.1 h2).1

theorem countOps_take_le (heap : Ptr → SemanticUnit) (l : List Ptr) {i j : Nat} (h : i ≤ j) :
    countOps heap (l.take i) ≤ countOps heap (l.take j) := by
  have e : l.take i = (l.take j).take i := by
    rw [List.take_take, Nat.min_eq_left h]
  have a := List.take_append_drop i (l.take j)
  rw [← a, countOps_append, ← e]
  omega

theorem countOps_take_succ (heap : Ptr → SemanticUnit) (l : List Ptr) (i : Nat)
    (hi : i < l.length) :
    countOps heap (l.take (i + 1))
      = countOps heap (l.take i) + (if isOperation heap l[i] then 1 else 0) := by
  rw [List.take_succ, countOps_append, List.getElem?_eq_getElem hi]
  simp only [Option.toList]
  rw [countOps_cons]
  simp [countOps, opsOf]

theorem countOps_take_eq (heap : Ptr → SemanticUnit) (l : List Ptr) (i d : Nat)
    (hj : i + d ≤ l.length)
    (hno : ∀ m (hm : m < l.length), i ≤ m → m < i + d → isOperation heap l[m] = false) :
    countOps heap (l.take (i + d)) = countOps heap (l.take i) := by
  induction d with
  | zero => rfl
  | succ d ih =>
    have hlt : i + d < l.length := by omega
    rw [← Nat.add_assoc, countOps_take_succ heap l (i + d) hlt,
      hno (i + d) hlt (by omega) (by omega),
      ih (by omega) (fun m hm h1 h2 => hno m hm h1 (by omega))]
    simp

/-- Every element of a filtered list sits in the list after as many selected
elements as its index in the filtered list. -/
theorem filter_split {α : Type} (p : α → Bool) (l : List α) (k : Nat)
    (hk : k < (l.filter p).length) :
    ∃ l1 l2, l = l1 ++ (l.filter p)[k] :: l2 ∧ (l1.filter p).length = k := by
  induction l generalizing k with
  | nil => simp at hk
  | cons a l ih =>
    by_cases ha : p a = true
    · have hf : (a :: l).filter p = a :: l.filter p := by simp [ha]
      cases k with
      | zero => exact ⟨[], l, by simp [hf], by simp⟩
      | succ k =>
        have hk2 : k < (l.filter p).length := by
          simp only [hf, List.length_cons] at hk; omega
        obtain ⟨l1, l2, h1, h2⟩ := ih k hk2
        refine ⟨a :: l1, l2, ?_, by simp [ha, h2]⟩
        simp only [hf, List.getElem_cons_succ, List.cons_append]
        exact congrArg _ h1
    · have hf : (a :: l).filter p = l.filter p := by simp [ha]
      have hk2 : k < (l.filter p).length := by rw [hf] at hk; exact hk
      obtain ⟨l1, l2, h1, h2⟩ := ih k hk2
      refine ⟨a :: l1, l2, ?_, by simp [ha, h2]⟩
      simp only [hf, List.cons_append]
      exact congrArg _ h1

/-! ### The encoder: `add` -/

/-- C5. An `add` with exactly 3 operands whose register identifiers all
resolve encodes to the ALU format with sub-opcodes NOP, ADD, NOP, immediate 0
and the three resolved indices in operand order; the addressing mode is 0
when all three operands are direct registers and 2 when all three are
indirect registers. -/
theorem encodeOperation_add (encode : Operation → ByteLine) (op : SemanticUnit)
    (pc r0 r1 r2 : Nat)
    (hty : op.type = .UNIT_OPERATION) (hm : op.str = "add") (hn : op.nOperands = 3)
    (h0 : getGprNum (op.operand 0).str = .ok r0)
    (h1 : getGprNum (op.operand 1).str = .ok r1)
    (h2 : getGprNum (op.operand 2).str = .ok r2) :
    ((op.operand 0).isDirectGpr = true → (op.operand 1).isDirectGpr = true →
      (op.operand 2).isDirectGpr = true →
        encodeOperation encode op pc
          = .ok (encode (.setALU .NOP .ADD .NOP 0 0 r0 r1 r2))) ∧
    ((op.operand 0).isIndirectGpr = true → (op.operand 1).isIndirectGpr = true →
      (op.operand 2).isIndirectGpr = true →
        encodeOperation encode op pc
          = .ok (encode (.setALU .NOP .ADD .NOP 2 0 r0 r1 r2))) := by
  have e0 : r0 % 256 = r0 := Nat.mod_eq_of_lt (by have := getGprNum_le h0; omega)
  have e1 : r1 % 256 = r1 := Nat.mod_eq_of_lt (by have := getGprNum_le h1; omega)
  have e2 : r2 % 256 = r2 := Nat.mod_eq_of_lt (by have := getGprNum_le h2; omega)
  constructor
  · intro d0 d1 d2
    simp [encodeOperation, hty, hm, hn, h0, h1, h2, d0, d1, d2, Operand.isDirectOrIndirectGpr,
      bind, Except.bind, pure, Except.pure, e0, e1, e2]
  · intro d0 d1 d2
    have n0 : (op.operand 0).isDirectGpr = false := by
      cases h : op.operand 0 <;> simp_all [Operand.isDirectGpr, Operand.isIndirectGpr]
    simp [encodeOperation, hty, hm, hn, h0, h1, h2, d0, d1, d2, n0, Operand.isDirectOrIndirectGpr,
      bind, Except.bind, pure, Except.pure, e0, e1, e2]

/-- C5 at `add %r1, %r2, %r3` (direct) and `add (%r4), (%r5), (%r31)`
(indirect). -/
theorem encodeOperation_add_witness :
    encodeOperation sampleEncode
        (mkOperation "add" [.directGpr "%r1", .directGpr "%r2", .directGpr "%r3"]) 0
      = .ok (sampleEncode (.setALU .NOP .ADD .NOP 0 0 1 2 3)) ∧
    encodeOperation sampleEncode
        (mkOperation "add" [.indirectGpr "%r4", .indirectGpr "%r5", .indirectGpr "%r31"]) 7
      = .ok (sampleEncode (.setALU .NOP .ADD .NOP 2 0 4 5 31)) :=
  ⟨(encodeOperation_add sampleEncode
      (mkOperation "add" [.directGpr "%r1", .directGpr "%r2", .directGpr "%r3"]) 0 1 2 3
      rfl rfl rfl (by decide) (by decide) (by decide)).1 rfl rfl rfl,
   (encodeOperation_add sampleEncode
      (mkOperation "add" [.indirectGpr "%r4", .indirectGpr "%r5", .indirectGpr "%r31"]) 7 4 5 31
      rfl rfl rfl (by decide) (by decide) (by decide)).2 rfl rfl rfl⟩

/-- C6 as stated fails: `add %rx, (%r1), %r2` has mixed addressing modes, yet
the error is `InvalidRegisterId`, not `InvalidOperandCombination`, because
the registers are resolved before the modes are compared. -/
theorem encodeOperation_add_mixed_bad_register :
    encodeOperation sampleEncode
        (mkOperation "add" [.directGpr "%rx", .indirectGpr "%r1", .directGpr "%r2"]) 0
      = .error .InvalidRegisterId ∧
    encodeOperation sampleEncode
        (mkOperation "add" [.directGpr "%rx", .indirectGpr "%r1", .directGpr "%r2"]) 0
      ≠ .error .InvalidOperandCombination := by
  decide

/-- C6, amended. An `add` with exactly 3 operands, each a direct or indirect
register, neither all direct nor all indirect, never encodes: when the three
register identifiers resolve the error is `InvalidOperandCombination`, and
when one of them does not resolve the error is `InvalidRegisterId` (the
registers are resolved before the addressing modes are compared). -/
theorem encodeOperation_add_mixed (encode : Operation → ByteLine) (op : SemanticUnit)
    (pc : Nat)
    (hty : op.type = .UNIT_OPERATION) (hm : op.str = "add") (hn : op.nOperands = 3)
    (k0 : (op.operand 0).isDirectOrIndirectGpr = true)
    (k1 : (op.operand 1).isDirectOrIndirectGpr = true)
    (k2 : (op.operand 2).isDirectOrIndirectGpr = true)
    (hd : ¬ ((op.operand 0).isDirectGpr = true ∧ (op.operand 1).isDirectGpr = true ∧
      (op.operand 2).isDirectGpr = true))
    (hi : ¬ ((op.operand 0).isIndirectGpr = true ∧ (op.operand 1).isIndirectGpr = true ∧
      (op.operand 2).isIndirectGpr = true)) :
    ((∃ r0 r1 r2, getGprNum (op.operand 0).str = .ok r0 ∧
        getGprNum (op.operand 1).str = .ok r1 ∧ getGprNum (op.operand 2).str = .ok r2) →
      encodeOperation encode op pc = .error .InvalidOperandCombination) ∧
    (((∃ e, getGprNum (op.operand 0).str = .error e) ∨
        (∃ e, getGprNum (op.operand 1).str = .error e) ∨
        (∃ e, getGprNum (op.operand 2).str = .error e)) →
      encodeOperation encode op pc = .error .InvalidRegisterId) := by
  have main : ∀ r0 r1 r2, getGprNum (op.operand 0).str = .ok r0 →
      getGprNum (op.operand 1).str = .ok r1 → getGprNum (op.operand 2).str = .ok r2 →
      encodeOperation encode op pc = .error .InvalidOperandCombination := by
    intro r0 r1 r2 h0 h1 h2
    simp [encodeOperation, hty, hm, hn, h0, h1, h2, k0, k1, k2, hd, hi,
      bind, Except.bind, pure, Except.pure]
  refine ⟨fun ⟨r0, r1, r2, h0, h1, h2⟩ => main r0 r1 r2 h0 h1 h2, ?_⟩
  intro hbad
  cases h0 : getGprNum (op.operand 0).str with
  | error e =>
    have := getGprNum_error h0
    subst this
    simp [encodeOperation, hty, hm, hn, h0, k0, k1, k2, bind, Except.bind]
  | ok r0 =>
    cases h1 : getGprNum (op.operand 1).str with
    | error e =>
      have := getGprNum_error h1
      subst this
      simp [encodeOperation, hty, hm, hn, h0, h1, k0, k1, k2, bind, Except.bind]
    | ok r1 =>
      cases h2 : getGprNum (op.operand 2).str with
      | error e =>
        have := getGprNum_error h2
        subst this
        simp [encodeOperation, hty, hm, hn, h0, h1, h2, k0, k1, k2, bind, Except.bind]
      | ok r2 =>
        exfalso
        rcases hbad with ⟨e, he⟩ | ⟨e, he⟩ | ⟨e, he⟩
        · rw [h0] at he; cases he
        · rw [h1] at he; cases he
        · rw [h2] at he; cases he

/-- C6, amended, at `add %r1, (%r2), %r3` (identifiers resolve:
`InvalidOperandCombination`) and at `add %r1, (%r2), %r32` (the third
identifier does not resolve: `InvalidRegisterId`). -/
theorem encodeOperation_add_mixed_witness :
    encodeOperation sampleEncode
        (mkOperation "add" [.directGpr "%r1", .indirectGpr "%r2", .directGpr "%r3"]) 0
      = .error .InvalidOperandCombination ∧
    encodeOperation sampleEncode
        (mkOperation "add" [.directGpr "%r1", .indirectGpr "%r2", .directGpr "%r32"]) 0
      = .error .InvalidRegisterId :=
  ⟨(encodeOperation_add_mixed sampleEncode
      (mkOperation "add" [.directGpr "%r1", .indirectGpr "%r2", .directGpr "%r3"]) 0
      rfl rfl rfl rfl rfl rfl (by decide) (by decide)).1
      ⟨1, 2, 3, by decide, by decide, by decide⟩,
   (encodeOperation_add_mixed sampleEncode
      (mkOperation "add" [.directGpr "%r1", .indirectGpr "%r2", .directGpr "%r32"]) 0
      rfl rfl rfl rfl rfl rfl (by decide) (by decide)).2
      (Or.inr (Or.inr ⟨.InvalidRegisterId, by decide⟩))⟩

/-! ### The encoder: `ld` -/

/-- C7. A two-operand `ld` whose operand 0 is a constant `v` with
`0 ≤ v ≤ 0xFFFF` and whose operand 1 carries a register identifier that
resolves to `r` encodes to the MOVE format with sub-opcode LD, immediate
exactly `v`, register field 1 equal to 0 and register field 2 equal to `r`;
the direction bit is 0 for a direct register and 1 for an indirect one. -/
theorem encodeOperation_ld (encode : Operation → ByteLine) (op : SemanticUnit)
    (pc : Nat) (v : Int) (r : Nat)
    (hty : op.type = .UNIT_OPERATION) (hm : op.str = "ld") (hn : op.nOperands = 2)
    (hc : op.operand 0 = .constInt v) (hlo : 0 ≤ v) (hhi : v ≤ 0xFFFF)
    (hr : getGprNum (op.operand 1).str = .ok r) :
    ((op.operand 1).isDirectGpr = true →
      encodeOperation encode op pc = .ok (encode (.setMOVE .LD 0 v.toNat 0 r))) ∧
    ((op.operand 1).isIndirectGpr = true →
      encodeOperation encode op pc = .ok (encode (.setMOVE .LD 1 v.toNat 0 r))) := by
  have hmod : v % 65536 = v := Int.emod_eq_of_lt hlo (by omega)
  constructor
  · intro d1
    simp [encodeOperation, hty, hm, hn, hc, hr, d1, hlo, hhi, hmod, Operand.isConstInt,
      Operand.integer, bind, Except.bind, pure, Except.pure]
  · intro d1
    have n1 : (op.operand 1).isDirectGpr = false := by
      cases h : op.operand 1 <;> simp_all [Operand.isDirectGpr, Operand.isIndirectGpr]
    simp [encodeOperation, hty, hm, hn, hc, hr, d1, n1, hlo, hhi, hmod, Operand.isConstInt,
      Operand.integer, bind, Except.bind, pure, Except.pure]

/-- C7 at `ld 0xFFFF, %r7` and `ld 0, (%r7)`. -/
theorem encodeOperation_ld_witness :
    encodeOperation sampleEncode
        (mkOperation "ld" [.constInt 0xFFFF, .directGpr "%r7"]) 3
      = .ok (sampleEncode (.setMOVE .LD 0 0xFFFF 0 7)) ∧
    encodeOperation sampleEncode
        (mkOperation "ld" [.constInt 0, .indirectGpr "%r7"]) 3
      = .ok (sampleEncode (.setMOVE .LD 1 0 0 7)) :=
  ⟨(encodeOperation_ld sampleEncode (mkOperation "ld" [.constInt 0xFFFF, .directGpr "%r7"])
      3 0xFFFF 7 rfl rfl rfl rfl (by decide) (by decide) (by decide)).1 rfl,
   (encodeOperation_ld sampleEncode (mkOperation "ld" [.constInt 0, .indirectGpr "%r7"])
      3 0 7 rfl rfl rfl rfl (by decide) (by decide) (by decide)).2 rfl⟩

/-- C8. A two-operand `ld` whose operand 0 is a constant outside
`[0, 0xFFFF]` and whose operand 1 is a direct or indirect register fails with
`ImmediateOutOfRange`, whatever identifier operand 1 carries. -/
theorem encodeOperation_ld_out_of_range (encode : Operation → ByteLine) (op : SemanticUnit)
    (pc : Nat) (v : Int)
    (hty : op.type = .UNIT_OPERATION) (hm : op.str = "ld") (hn : op.nOperands = 2)
    (hc : op.operand 0 = .constInt v) (hv : v < 0 ∨ 0xFFFF < v)
    (hk : (op.operand 1).isDirectOrIndirectGpr = true) :
    encodeOperation encode op pc = .error .ImmediateOutOfRange := by
  have hnot : ¬ (0 ≤ v ∧ v ≤ 65535) := by omega
  cases h1 : op.operand 1 with
  | constInt c => simp [h1, Operand.isDirectOrIndirectGpr, Operand.isDirectGpr,
      Operand.isIndirectGpr] at hk
  | directGpr id =>
    simp [encodeOperation, hty, hm, hn, hc, h1, hnot, Operand.isConstInt, Operand.isDirectGpr,
      Operand.integer, bind, Except.bind, pure, Except.pure]
  | indirectGpr id =>
    simp [encodeOperation, hty, hm, hn, hc, h1, hnot, Operand.isConstInt, Operand.isDirectGpr,
      Operand.isIndirectGpr, Operand.integer, bind, Except.bind, pure, Except.pure]

/-- C8 at `ld 0x10000, %r7`, at a negative immediate and at a malformed
register identifier. -/
theorem encodeOperation_ld_out_of_range_witness :
    encodeOperation sampleEncode
        (mkOperation "ld" [.constInt 0x10000, .directGpr "%r7"]) 0
      = .error .ImmediateOutOfRange ∧
    encodeOperation sampleEncode
        (mkOperation "ld" [.constInt (-1), .indirectGpr "%rx"]) 0
      = .error .ImmediateOutOfRange :=
  ⟨encodeOperation_ld_out_of_range sampleEncode
      (mkOperation "ld" [.constInt 0x10000, .directGpr "%r7"]) 0 0x10000
      rfl rfl rfl rfl (by decide) rfl,
   encodeOperation_ld_out_of_range sampleEncode
      (mkOperation "ld" [.constInt (-1), .indirectGpr "%rx"]) 0 (-1)
      rfl rfl rfl rfl (by decide) rfl⟩

/-! ### The encoder: `brm` -/

/-- C9. A two-operand `brm` whose register identifiers resolve to `r0` and
`r1` encodes to the MOVE format with sub-opcode BRM, immediate 0 and register
fields `r0`, `r1` in operand order; the direction bit is 1 for (indirect,
direct) operands and 0 for (direct, indirect) operands. -/
theorem encodeOperation_brm (encode : Operation → ByteLine) (op : SemanticUnit)
    (pc r0 r1 : Nat)
    (hty : op.type = .UNIT_OPERATION) (hm : op.str = "brm") (hn : op.nOperands = 2)
    (h0 : getGprNum (op.operand 0).str = .ok r0)
    (h1 : getGprNum (op.operand 1).str = .ok r1) :
    ((op.operand 0).isIndirectGpr = true → (op.operand 1).isDirectGpr = true →
      encodeOperation encode op pc = .ok (encode (.setMOVE .BRM 1 0 r0 r1))) ∧
    ((op.operand 0).isDirectGpr = true → (op.operand 1).isIndirectGpr = true →
      encodeOperation encode op pc = .ok (encode (.setMOVE .BRM 0 0 r0 r1))) := by
  constructor
  · intro k0 k1
    simp [encodeOperation, hty, hm, hn, h0, h1, k0, k1, bind, Except.bind, pure, Except.pure]
  · intro k0 k1
    have n0 : (op.operand 0).isIndirectGpr = false := by
      cases h : op.operand 0 <;> simp_all [Operand.isDirectGpr, Operand.isIndirectGpr]
    simp [encodeOperation, hty, hm, hn, h0, h1, k0, k1, n0, bind, Except.bind, pure,
      Except.pure]

/-- C9 at `brm (%r3), %r12` and `brm %r3, (%r12)`. -/
theorem encodeOperation_brm_witness :
    encodeOperation sampleEncode
        (mkOperation "brm" [.indirectGpr "%r3", .directGpr "%r12"]) 0
      = .ok (sampleEncode (.setMOVE .BRM 1 0 3 12)) ∧
    encodeOperation sampleEncode
        (mkOperation "brm" [.directGpr "%r3", .indirectGpr "%r12"]) 0
      = .ok (sampleEncode (.setMOVE .BRM 0 0 3 12)) :=
  ⟨(encodeOperation_brm sampleEncode
      (mkOperation "brm" [.indirectGpr "%r3", .directGpr "%r12"]) 0 3 12
      rfl rfl rfl (by decide) (by decide)).1 rfl rfl,
   (encodeOperation_brm sampleEncode
      (mkOperation "brm" [.directGpr "%r3", .indirectGpr "%r12"]) 0 3 12
      rfl rfl rfl (by decide) (by decide)).2 rfl rfl⟩

/-- C10. A two-operand `brm` whose operand kinds are neither (indirect,
direct) nor (direct, indirect) fails with `InvalidOperandCombination` and
produces no instruction, whatever the operands carry. -/
theorem encodeOperation_brm_invalid (encode : Operation → ByteLine) (op : SemanticUnit)
    (pc : Nat)
    (hty : op.type = .UNIT_OPERATION) (hm : op.str = "brm") (hn : op.nOperands = 2)
    (hid : ¬ ((op.operand 0).isIndirectGpr = true ∧ (op.operand 1).isDirectGpr = true))
    (hdi : ¬ ((op.operand 0).isDirectGpr = true ∧ (op.operand 1).isIndirectGpr = true)) :
    encodeOperation encode op pc = .error .InvalidOperandCombination := by
  simp [encodeOperation, hty, hm, hn, hid, hdi, bind, Except.bind]

/-- C10 at `brm` with two direct registers, with two indirect registers and
with a constant operand. -/
theorem encodeOperation_brm_invalid_witness :
    encodeOperation sampleEncode
        (mkOperation "brm" [.directGpr "%r1", .directGpr "%r2"]) 0
      = .error .InvalidOperandCombination ∧
    encodeOperation sampleEncode
        (mkOperation "brm" [.indirectGpr "%r1", .indirectGpr "%rx"]) 0
      = .error .InvalidOperandCombination ∧
    encodeOperation sampleEncode
        (mkOperation "brm" [.constInt 5, .directGpr "%r2"]) 0
      = .error .InvalidOperandCombination :=
  ⟨encodeOperation_brm_invalid sampleEncode
      (mkOperation "brm" [.directGpr "%r1", .directGpr "%r2"]) 0
      rfl rfl rfl (by decide) (by decide),
   encodeOperation_brm_invalid sampleEncode
      (mkOperation "brm" [.indirectGpr "%r1", .indirectGpr "%rx"]) 0
      rfl rfl rfl (by decide) (by decide),
   encodeOperation_brm_invalid sampleEncode
      (mkOperation "brm" [.constInt 5, .directGpr "%r2"]) 0
      rfl rfl rfl (by decide) (by decide)⟩



/-- When no Operation unit occurs twice, the `k`-th Operation unit of the
sequence gets the entry `k` in `unit_addr`. -/
theorem layoutLoop_find_op (heap : Ptr → SemanticUnit) (l : List Ptr)
    (hnd : (opsOf heap l).Nodup) (hlen : l.length < 2 ^ 32) (k : Nat)
    (hk : k < (opsOf heap l).length) :
    StdMap.find (layoutLoop heap l).unit_addr ((opsOf heap l)[k]) = some k := by
  obtain ⟨l1, l2, h1, h2⟩ := filter_split (isOperation heap) l k hk
  have hop : isOperation heap ((opsOf heap l)[k]) = true :=
    (List.mem_filter.1 (List.getElem_mem hk)).2
  have h1' : l = l1 ++ (opsOf heap l)[k] :: l2 := h1
  clear h1
  generalize (opsOf heap l)[k] = u at h1' hop
  subst h1'
  have hnot : u ∉ l2 := by
    intro hm
    have hmem : u ∈ opsOf heap l2 := List.mem_filter.2 ⟨hm, hop⟩
    have e : opsOf heap (l1 ++ u :: l2) = opsOf heap l1 ++ u :: opsOf heap l2 := by
      simp [opsOf, List.filter_cons, hop]
    rw [e] at hnd
    exact (List.nodup_cons.1 (List.nodup_append.1 hnd).2.1).1 hmem
  rw [layoutLoop_find_unit heap l1 l2 u hlen hnot]
  exact congrArg some h2

/-- A sequence of exactly `2 ^ 31` units is not visited at all: the bound
`(int)units.size()` of the loops is negative. -/
theorem visitedUnits_of_length_eq {units : List Ptr} (h : units.length = 2 ^ 31) :
    visitedUnits units = [] := by
  unfold visitedUnits
  rw [h, show loopCount (2 ^ 31) = 0 by decide, List.take_zero]

/-- C1, amended. For a sequence of fewer than `2 ^ 31` units: the address
recorded for the unit at position `i` is the number of Operation units before
position `i`, provided the unit object at `i` does not occur again at a later
position.  When no unit object occurs twice this holds at every position, so:
the `k`-th Operation gets address `k`; a unit followed only by non-Operation
units up to the next Operation has that Operation's address; and addresses
are non-decreasing in sequence order. -/
theorem layoutPass_unit_addr (heap : Ptr → SemanticUnit) (units : List Ptr)
    (hlen : units.length < 2 ^ 31) :
    (∀ i (hi : i < units.length), units[i] ∉ units.drop (i + 1) →
      unitAddrAt heap units i = some (countOps heap (units.take i))) ∧
    (units.Nodup → ∀ k (hk : k < (opsOf heap units).length),
      StdMap.find (layoutPass heap units).unit_addr ((opsOf heap units)[k]) = some k) ∧
    (units.Nodup → ∀ i j, i ≤ j → j < units.length →
      (∀ m (hm : m < units.length), i ≤ m → m < j → isOperation heap units[m] = false) →
      unitAddrAt heap units i = unitAddrAt heap units j) ∧
    (units.Nodup → ∀ i j, i ≤ j → j < units.length →
      ∃ a b, unitAddrAt heap units i = some a ∧ unitAddrAt heap units j = some b ∧ a ≤ b) := by
  have hA : ∀ i (hi : i < units.length), units[i] ∉ units.drop (i + 1) →
      unitAddrAt heap units i = some (countOps heap (units.take i)) := by
    intro i hi hnot
    have hs := split_at units i hi
    have key := layoutLoop_find_unit heap (units.take i) (units.drop (i + 1)) units[i]
      (by rw [← hs]; omega) hnot
    rw [← hs] at key
    simp only [unitAddrAt, List.getElem?_eq_getElem hi, layoutPass, visitedUnits_of_lt hlen]
    exact key
  refine ⟨hA, ?_, ?_, ?_⟩
  · intro hnd k hk
    rw [layoutPass, visitedUnits_of_lt hlen]
    exact layoutLoop_find_op heap units (hnd.filter _) (by omega) k hk
  · intro hnd i j hij hj hno
    rw [hA i (by omega) (not_mem_drop_of_nodup hnd i (by omega)),
      hA j hj (not_mem_drop_of_nodup hnd j hj)]
    obtain ⟨d, rfl⟩ := Nat.exists_eq_add_of_le hij
    rw [countOps_take_eq heap units i d (by omega) hno]
  · intro hnd i j hij hj
    exact ⟨_, _, hA i (by omega) (not_mem_drop_of_nodup hnd i (by omega)),
      hA j hj (not_mem_drop_of_nodup hnd j hj), countOps_take_le heap units hij⟩

/-- C1, amended, at `[Label "L", add, nop]`: `L` gets 0, `add` gets 0 and
`nop` gets 1. -/
theorem layoutPass_unit_addr_witness :
    unitAddrAt sampleHeap [0, 1, 2] 0 = some 0 ∧
    unitAddrAt sampleHeap [0, 1, 2] 1 = some 0 ∧
    unitAddrAt sampleHeap [0, 1, 2] 2 = some 1 :=
  ⟨(layoutPass_unit_addr sampleHeap [0, 1, 2] (by decide)).1 0 (by decide) (by decide),
   (layoutPass_unit_addr sampleHeap [0, 1, 2] (by decide)).1 1 (by decide) (by decide),
   (layoutPass_unit_addr sampleHeap [0, 1, 2] (by decide)).1 2 (by decide) (by decide)⟩

/-- C1 as stated fails. (1) When the same `nop` object stands at positions 0
and 1, the address recorded for position 0 is 1, although no Operation
precedes position 0.  (2) For a sequence of `2 ^ 31` distinct units the loop
bound `(int)units.size()` is negative, no unit is visited and no address is
recorded for any position. -/
theorem layoutPass_unit_addr_counterexample :
    (unitAddrAt nopHeap [0, 0] 0 = some 1 ∧ countOps nopHeap ([0, 0].take 0) = 0) ∧
    ((List.range (2 ^ 31)).Nodup ∧ 0 < (List.range (2 ^ 31)).length ∧
      (layoutPass nopHeap (List.range (2 ^ 31))).unit_addr = []) := by
  refine ⟨by decide, List.nodup_range _, ?_, ?_⟩
  · rw [List.length_range]
    norm_num
  · rw [layoutPass, visitedUnits_of_length_eq (List.length_range _)]
    rfl

/-! ### The label table -/

theorem isSome_find_insert {κ υ : Type} [DecidableEq κ] [LT κ]
    [DecidableRel (fun a b : κ => a < b)] (m : StdMap κ υ) (k k2 : κ) (v : υ) :
    (StdMap.find (StdMap.insert m k v) k2).isSome = true ↔
      k = k2 ∨ (StdMap.find m k2).isSome = true := by
  by_cases h : k = k2
  · subst h
    simp [StdMap.find_insert_self]
  · simp [StdMap.find_insert_ne m v h, h]

theorem layoutStep_label_addr (heap : Ptr → SemanticUnit) (st : Layout) (u : Ptr) :
    (layoutStep heap st u).label_addr
      = if isLabel heap u then StdMap.insert st.label_addr (heap u).str st.pc
        else st.label_addr := by
  simp only [layoutStep, isLabel]
  split_ifs <;> simp_all

/-- The keys of `label_addr` after the layout loop are the keys it started
with and the identifiers of the Label units visited. -/
theorem layout_foldl_label_keys (heap : Ptr → SemanticUnit) (l : List Ptr) (st : Layout)
    (s : String) :
    (StdMap.find (l.foldl (layoutStep heap) st).label_addr s).isSome = true ↔
      (StdMap.find st.label_addr s).isSome = true ∨
        ∃ u ∈ l, isLabel heap u = true ∧ (heap u).str = s := by
  induction l generalizing st with
  | nil => simp
  | cons w l ih =>
    rw [List.foldl_cons, ih, layoutStep_label_addr]
    by_cases hw : isLabel heap w = true
    · simp only [hw, if_true, isSome_find_insert, List.mem_cons, exists_eq_or_imp, true_and]
      tauto
    · simp only [hw, if_false, List.mem_cons, exists_eq_or_imp, false_and, false_or]
      simp

/-- An identifier that no visited Label unit carries keeps its entry. -/
theorem layout_foldl_label_not_mem (heap : Ptr → SemanticUnit) (l : List Ptr) (st : Layout)
    (s : String) (h : ∀ u ∈ l, isLabel heap u = true → (heap u).str ≠ s) :
    StdMap.find (l.foldl (layoutStep heap) st).label_addr s = StdMap.find st.label_addr s := by
  induction l generalizing st with
  | nil => rfl
  | cons w l ih =>
    rw [List.foldl_cons, ih _ (fun u hu => h u (List.mem_cons_of_mem _ hu)),
      layoutStep_label_addr]
    by_cases hw : isLabel heap w = true
    · simp only [hw, if_true]
      exact StdMap.find_insert_ne _ _ (h w (List.mem_cons_self _ _) hw)
    · simp [hw]

/-- The entry of `label_addr` for the last Label unit carrying an identifier
is the number of Operation units before that unit. -/
theorem layoutLoop_find_label (heap : Ptr → SemanticUnit) (l1 l2 : List Ptr) (u : Ptr)
    (hlen : (l1 ++ u :: l2).length < 2 ^ 32) (hu : isLabel heap u = true)
    (h : ∀ w ∈ l2, isLabel heap w = true → (heap w).str ≠ (heap u).str) :
    StdMap.find (layoutLoop heap (l1 ++ u :: l2)).label_addr (heap u).str
      = some (countOps heap l1) := by
  have hc := countOps_le_length heap l1
  simp only [List.length_append, List.length_cons] at hlen
  unfold layoutLoop
  rw [List.foldl_append, List.foldl_cons, layout_foldl_label_not_mem _ _ _ _ h,
    layoutStep_label_addr, if_pos hu, StdMap.find_insert_self,
    layout_foldl_pc _ _ _ (by simp; omega)]
  simp

/-- C2, amended. For a sequence of fewer than `2 ^ 31` units, the keys of the
label table are exactly the identifiers of the Label units of the sequence,
and each identifier maps to the number of Operation units before its last
occurrence. -/
theorem layoutPass_label_addr (heap : Ptr → SemanticUnit) (units : List Ptr)
    (hlen : units.length < 2 ^ 31) :
    (∀ s, (StdMap.find (layoutPass heap units).label_addr s).isSome = true ↔
      ∃ u ∈ units, isLabel heap u = true ∧ (heap u).str = s) ∧
    (∀ i (hi : i < units.length), isLabel heap units[i] = true →
      (∀ w ∈ units.drop (i + 1), isLabel heap w = true →
        (heap w).str ≠ (heap units[i]).str) →
      StdMap.find (layoutPass heap units).label_addr (heap units[i]).str
        = some (countOps heap (units.take i))) := by
  constructor
  · intro s
    rw [layoutPass, visitedUnits_of_lt hlen, layoutLoop, layout_foldl_label_keys]
    simp [StdMap.find]
  · intro i hi hlab hlast
    have hs := split_at units i hi
    have key := layoutLoop_find_label heap (units.take i) (units.drop (i + 1)) units[i]
      (by rw [← hs]; omega) hlab hlast
    rw [← hs] at key
    rw [layoutPass, visitedUnits_of_lt hlen]
    exact key

/-- C2, amended, at `[Label "L", add, nop]` (`L` maps to 0, and `M` is not a
key) and at `[Label "L", nop, Label "L", nop]` (`L` maps to 1, the address of
its last occurrence). -/
theorem layoutPass_label_addr_witness :
    StdMap.find (layoutPass sampleHeap [0, 1, 2]).label_addr "L" = some 0 ∧
    StdMap.find (layoutPass twoLabelHeap [0, 1, 2, 3]).label_addr "L" = some 1 := by
  have h1 := (layoutPass_label_addr sampleHeap [0, 1, 2] (by decide)).2 0 (by decide)
    (by decide) (by decide)
  have h2 := (layoutPass_label_addr twoLabelHeap [0, 1, 2, 3] (by decide)).2 2 (by decide)
    (by decide) (by decide)
  exact ⟨h1, h2⟩

/-- C2 as stated fails for a sequence of `2 ^ 31` Label units: the loop bound
`(int)units.size()` is negative, no unit is visited and the label table stays
empty, although the sequence declares the label `L`. -/
theorem layoutPass_label_addr_counterexample :
    (layoutPass labelHeap (List.range (2 ^ 31))).label_addr = [] ∧
    (∃ u ∈ List.range (2 ^ 31), isLabel labelHeap u = true ∧ (labelHeap u).str = "L") := by
  constructor
  · rw [layoutPass, visitedUnits_of_length_eq (List.length_range _)]
    rfl
  · exact ⟨0, List.mem_range.2 (by norm_num), by decide, by decide⟩

/-! ### The image -/

/-- The encoder does not depend on the word address it is given. -/
theorem encodeOperation_pc_irrel (encode : Operation → ByteLine) (op : SemanticUnit)
    (pc1 pc2 : Nat) : encodeOperation encode op pc1 = encodeOperation encode op pc2 := rfl

theorem find_eq_none_of_lt {υ : Type} (m : StdMap Nat υ) (k : Nat)
    (h : ∀ e ∈ m, e.1 < k) : StdMap.find m k = none := by
  induction m with
  | nil => rfl
  | cons e m ih =>
    obtain ⟨k', v'⟩ := e
    have h1 : k' < k := h (k', v') (List.mem_cons_self _ _)
    have hne : ¬ k' = k := by omega
    simp only [StdMap.find, hne, if_false]
    exact ih (fun e he => h e (List.mem_cons_of_mem _ he))

theorem insert_eq_append_of_lt {υ : Type} (m : StdMap Nat υ) (k : Nat) (v : υ)
    (h : ∀ e ∈ m, e.1 < k) : StdMap.insert m k v = m ++ [(k, v)] := by
  induction m with
  | nil => rfl
  | cons e m ih =>
    obtain ⟨k', v'⟩ := e
    have h1 : k' < k := h (k', v') (List.mem_cons_self _ _)
    have hne : ¬ k' = k := by omega
    have hlt : ¬ k < k' := by omega
    simp only [StdMap.insert, hne, hlt, if_false, List.cons_append]
    rw [ih (fun e he => h e (List.mem_cons_of_mem _ he))]

theorem find_enum {υ : Type} (l : List υ) (s a : Nat) :
    StdMap.find (List.enumFrom s l) (s + a) = l[a]? := by
  induction l generalizing s a with
  | nil => rfl
  | cons x l ih =>
    cases a with
    | zero => simp [List.enumFrom_cons, StdMap.find]
    | succ a =>
      have hne : ¬ s = s + (a + 1) := by omega
      simp only [List.enumFrom_cons, StdMap.find, hne, if_false, List.getElem?_cons_succ]
      rw [show s + (a + 1) = (s + 1) + a by omega]
      exact ih (s + 1) a

theorem enum_keys_lt {υ : Type} (l : List υ) : ∀ e ∈ List.enumFrom 0 l, e.1 < l.length := by
  intro e he
  have := List.fst_lt_add_of_mem_enumFrom he
  omega

/-- Adding an entry with key `l.length` to the enumeration of `l`. -/
theorem insert_enum {υ : Type} (l : List υ) (v : υ) :
    StdMap.insert (List.enumFrom 0 l) l.length v = List.enumFrom 0 (l ++ [v]) := by
  rw [insert_eq_append_of_lt _ _ _ (enum_keys_lt l), List.enumFrom_append]
  simp

/-- The inner loop of the third loop of `run`, for a line that starts right
behind the bytes written so far and ends below `2 ^ 32`: the first `m` bytes
of the line are appended. -/
theorem writeBytes_take (flat bytes : List Nat) (m : Nat) (hm : m ≤ bytes.length)
    (hfit : flat.length + bytes.length ≤ 2 ^ 32) :
    (List.range m).foldlM (writeByte flat.length bytes) (List.enumFrom 0 flat)
      = .ok (List.enumFrom 0 (flat ++ bytes.take m)) := by
  induction m with
  | zero => simp [pure, Except.pure]
  | succ m ih =>
    have hlt : m < bytes.length := by omega
    rw [List.range_succ, List.foldlM_append, ih (by omega)]
    have haddr : (flat.length + m) % 2 ^ 32 = (flat ++ bytes.take m).length := by
      rw [List.length_append, List.length_take, Nat.min_eq_left (by omega)]
      exact Nat.mod_eq_of_lt (by omega)
    have hnone : StdMap.find (List.enumFrom 0 (flat ++ bytes.take m))
        ((flat ++ bytes.take m).length) = none :=
      find_eq_none_of_lt _ _ (enum_keys_lt _)
    have htake : bytes.take (m + 1) = bytes.take m ++ [bytes.getD m 0] := by
      rw [List.take_succ, List.getElem?_eq_getElem hlt, List.getD_eq_getElem _ _ hlt]
      rfl
    simp only [bind, Except.bind, List.foldlM_cons, List.foldlM_nil, writeByte, haddr, hnone,
      Option.isSome_none, Bool.false_eq_true, if_false, pure, Except.pure]
    rw [insert_enum, htake, List.append_assoc]


theorem length_flatten_of_four (lines : List ByteLine) (h : ∀ b ∈ lines, b.length = 4) :
    lines.flatten.length = 4 * lines.length := by
  induction lines with
  | nil => rfl
  | cons b lines ih =>
    rw [List.flatten_cons, List.length_append, h b (List.mem_cons_self _ _),
      ih (fun c hc => h c (List.mem_cons_of_mem _ hc)), List.length_cons]
    omega

/-- The body of the third loop of `run`, for a 4-byte line that starts right
behind the bytes written so far and ends below `2 ^ 32`: the line is
appended. -/
theorem writeLine_append (flat bytes : List Nat) (k : Nat) (hk : flat.length = 4 * k)
    (hb : bytes.length = 4) (hfit : flat.length + 4 ≤ 2 ^ 32) :
    writeLine (List.enumFrom 0 flat) (k, bytes) = .ok (List.enumFrom 0 (flat ++ bytes)) := by
  have hstart : (k * 4) % 2 ^ 32 = flat.length := by
    rw [hk, Nat.mul_comm]
    exact Nat.mod_eq_of_lt (by omega)
  have hcount : loopCount bytes.length = bytes.length := loopCount_of_lt (by rw [hb]; norm_num)
  unfold writeLine
  simp only [hstart, hcount]
  rw [writeBytes_take flat bytes bytes.length (Nat.le_refl _) (by omega), List.take_length]

/-- The third loop of `run` over 4-byte lines at consecutive word addresses,
at most `2 ^ 30` of them: the image is the enumeration of the bytes of the
lines, one line after the other. -/
theorem imageLoop_aux (rest acc : List ByteLine) (hacc : ∀ b ∈ acc, b.length = 4)
    (hrest : ∀ b ∈ rest, b.length = 4) (hfit : acc.length + rest.length ≤ 2 ^ 30) :
    (List.enumFrom acc.length rest).foldlM writeLine (List.enumFrom 0 acc.flatten)
      = .ok (List.enumFrom 0 (acc ++ rest).flatten) := by
  induction rest generalizing acc with
  | nil => simp [pure, Except.pure]
  | cons b rest ih =>
    have hb : b.length = 4 := hrest b (List.mem_cons_self _ _)
    have hlen := length_flatten_of_four acc hacc
    simp only [List.length_cons] at hfit
    rw [List.enumFrom_cons, List.foldlM_cons,
      writeLine_append acc.flatten b acc.length hlen hb (by omega)]
    have hacc2 : ∀ c ∈ acc ++ [b], c.length = 4 := by
      intro c hc
      rcases List.mem_append.1 hc with h | h
      · exact hacc c h
      · rw [List.mem_singleton.1 h]; exact hb
    have key := ih (acc ++ [b]) hacc2 (fun c hc => hrest c (List.mem_cons_of_mem _ hc))
      (by simp only [List.length_append, List.length_singleton]; omega)
    simp only [List.length_append, List.length_singleton, List.flatten_append,
      List.flatten_cons, List.flatten_nil, List.append_nil, List.append_assoc,
      List.singleton_append] at key
    simp only [bind, Except.bind]
    rw [key, List.flatten_append, List.flatten_cons]

theorem imageLoop_enum (lines : List ByteLine) (h4 : ∀ b ∈ lines, b.length = 4)
    (hfit : lines.length ≤ 2 ^ 30) :
    imageLoop (List.enumFrom 0 lines) = .ok (List.enumFrom 0 lines.flatten) := by
  have key := imageLoop_aux lines [] (by simp) h4 (by simpa using hfit)
  simpa [imageLoop] using key

/-- The third loop of `run` over more than `2 ^ 30` 4-byte lines at
consecutive word addresses: the byte address of line `2 ^ 30` wraps to 0,
which is already written. -/
theorem imageLoop_overflow (lines : List ByteLine) (h4 : ∀ b ∈ lines, b.length = 4)
    (hbig : 2 ^ 30 < lines.length) :
    imageLoop (List.enumFrom 0 lines) = .error .DuplicateByteAddress := by
  have hsplit : lines = lines.take (2 ^ 30) ++ lines[2 ^ 30] :: lines.drop (2 ^ 30 + 1) := by
    rw [List.getElem_cons_drop, List.take_append_drop]
  have hb : (lines[2 ^ 30]).length = 4 := h4 _ (List.getElem_mem _)
  generalize lines[2 ^ 30] = b at hsplit hb
  have htake : ∀ c ∈ lines.take (2 ^ 30), c.length = 4 :=
    fun c hc => h4 c (List.mem_of_mem_take hc)
  have hlt : (lines.take (2 ^ 30)).length = 2 ^ 30 := by
    rw [List.length_take, Nat.min_eq_left (by omega)]
  have hflat := length_flatten_of_four _ htake
  rw [hlt] at hflat
  have h0 : StdMap.find (List.enumFrom 0 (lines.take (2 ^ 30)).flatten) ((0 * 4 + 0) % 2 ^ 32)
      = (lines.take (2 ^ 30)).flatten[0]? := find_enum _ 0 0
  have hsome : ((lines.take (2 ^ 30)).flatten[0]?).isSome = true := by
    rw [List.getElem?_eq_getElem (by rw [hflat]; norm_num)]
    rfl
  have hcount : List.range (loopCount b.length) = [0, 1, 2, 3] := by
    rw [hb]; decide
  have hw : writeLine (List.enumFrom 0 (lines.take (2 ^ 30)).flatten) (2 ^ 30, b)
      = .error .DuplicateByteAddress := by
    unfold writeLine
    have hstart : ((2 : Nat) ^ 30 * 4) % 2 ^ 32 = 0 * 4 := by norm_num
    simp only [hcount, hstart, List.foldlM_cons, writeByte, h0, hsome, if_true, bind,
      Except.bind]
  unfold imageLoop
  rw [hsplit, List.enumFrom_append, List.foldlM_append]
  have h1 := imageLoop_enum (lines.take (2 ^ 30)) htake (by omega)
  unfold imageLoop at h1
  rw [h1, hlt]
  simp only [bind, Except.bind, Nat.zero_add, List.enumFrom_cons, List.foldlM_cons, hw]



theorem linesOf_append (encode : Operation → ByteLine) (heap : Ptr → SemanticUnit)
    (l1 l2 : List Ptr) :
    linesOf encode heap (l1 ++ l2) = linesOf encode heap l1 ++ linesOf encode heap l2 := by
  simp [linesOf, opsOf_append]

theorem length_linesOf (encode : Operation → ByteLine) (heap : Ptr → SemanticUnit)
    (l : List Ptr) : (linesOf encode heap l).length = countOps heap l := by
  simp [linesOf, countOps]

/-- An Operation unit of a sequence without repeated Operation units does not
occur again behind its position. -/
theorem not_mem_of_ops_nodup (heap : Ptr → SemanticUnit) (l1 l2 : List Ptr) (u : Ptr)
    (hnd : (opsOf heap (l1 ++ u :: l2)).Nodup) (hop : isOperation heap u = true) :
    u ∉ l2 := by
  intro hm
  have hmem : u ∈ opsOf heap l2 := List.mem_filter.2 ⟨hm, hop⟩
  have e : opsOf heap (l1 ++ u :: l2) = opsOf heap l1 ++ u :: opsOf heap l2 := by
    simp [opsOf, List.filter_cons, hop]
  rw [e] at hnd
  exact (List.nodup_cons.1 (List.nodup_append.1 hnd).2.1).1 hmem

/-- The second loop of `run`, when every Operation unit is looked up at the
number of Operation units before it and encodes: the operation list is the
enumeration of the encodings. -/
theorem encodeLoop_aux (encode : Operation → ByteLine) (heap : Ptr → SemanticUnit)
    (unit_addr : StdMap Ptr Nat) (suf pre : List Ptr)
    (hfind : ∀ l1 u l2, pre ++ suf = l1 ++ u :: l2 → isOperation heap u = true →
      StdMap.find unit_addr u = some (countOps heap l1))
    (henc : ∀ u ∈ suf, isOperation heap u = true →
      ∃ b, encodeOperation encode (heap u) 0 = .ok b) :
    suf.foldlM (encodeStep encode heap unit_addr) (List.enumFrom 0 (linesOf encode heap pre))
      = .ok (List.enumFrom 0 (linesOf encode heap (pre ++ suf))) := by
  induction suf generalizing pre with
  | nil => simp [pure, Except.pure]
  | cons u suf ih =>
    have hassoc : pre ++ u :: suf = (pre ++ [u]) ++ suf := by simp
    have key := ih (pre ++ [u]) (by rw [← hassoc]; exact hfind)
      (fun w hw => henc w (List.mem_cons_of_mem _ hw))
    rw [← hassoc] at key
    rw [List.foldlM_cons]
    by_cases hop : isOperation heap u = true
    · have hty : (heap u).type = .UNIT_OPERATION := by simpa [isOperation] using hop
      obtain ⟨b, hb⟩ := henc u (List.mem_cons_self _ _) hop
      have hpc := hfind pre u suf rfl hop
      have hline : lineOf encode heap u = b := by simp [lineOf, hb]
      have hnone : StdMap.find (List.enumFrom 0 (linesOf encode heap pre))
          (countOps heap pre) = none :=
        find_eq_none_of_lt _ _ (by
          intro e he
          have := enum_keys_lt _ e he
          rwa [length_linesOf] at this)
      have hins : StdMap.insert (List.enumFrom 0 (linesOf encode heap pre))
          (countOps heap pre) b = List.enumFrom 0 (linesOf encode heap (pre ++ [u])) := by
        have := insert_enum (linesOf encode heap pre) b
        rw [length_linesOf] at this
        rw [this, linesOf_append]
        simp [linesOf, opsOf, hop, hline]
      have hstep : encodeStep encode heap unit_addr
          (List.enumFrom 0 (linesOf encode heap pre)) u
          = .ok (List.enumFrom 0 (linesOf encode heap (pre ++ [u]))) := by
        simp only [encodeStep, hty, if_true, hpc, Option.getD_some, hnone, Option.isSome_none,
          Bool.false_eq_true, if_false, encodeOperation_pc_irrel encode (heap u) _ 0, hb,
          bind, Except.bind, pure, Except.pure, hins]
      rw [hstep]
      simpa only [bind, Except.bind] using key
    · have hty : ¬ (heap u).type = .UNIT_OPERATION := by simpa [isOperation] using hop
      have hlines : linesOf encode heap (pre ++ [u]) = linesOf encode heap pre := by
        simp [linesOf, opsOf, hop]
      have hstep : encodeStep encode heap unit_addr
          (List.enumFrom 0 (linesOf encode heap pre)) u
          = .ok (List.enumFrom 0 (linesOf encode heap pre)) := by
        simp only [encodeStep, hty, if_false, pure, Except.pure]
      rw [hstep]
      rw [hlines] at key
      simpa only [bind, Except.bind] using key

/-- The operation list of `run`, for a sequence of fewer than `2 ^ 31` units
without repeated Operation units, all of which encode: the enumeration of the
encodings. -/
theorem encodeLoop_enum (encode : Operation → ByteLine) (heap : Ptr → SemanticUnit)
    (units : List Ptr) (hlen : units.length < 2 ^ 31) (hnd : (opsOf heap units).Nodup)
    (henc : ∀ u ∈ units, isOperation heap u = true →
      ∃ b, encodeOperation encode (heap u) 0 = .ok b) :
    encodeLoop encode heap (layoutPass heap units).unit_addr (visitedUnits units)
      = .ok (List.enumFrom 0 (linesOf encode heap units)) := by
  rw [layoutPass, visitedUnits_of_lt hlen]
  have key := encodeLoop_aux encode heap (layoutLoop heap units).unit_addr units []
    (by
      intro l1 u l2 hs hop
      rw [List.nil_append] at hs
      subst hs
      exact layoutLoop_find_unit heap l1 l2 u (by omega)
        (not_mem_of_ops_nodup heap l1 l2 u hnd hop))
    henc
  simpa [encodeLoop, linesOf, opsOf] using key

theorem linesOf_length_four (encode : Operation → ByteLine) (heap : Ptr → SemanticUnit)
    (units : List Ptr)
    (henc : ∀ u ∈ units, isOperation heap u = true →
      ∃ b, encodeOperation encode (heap u) 0 = .ok b ∧ b.length = 4) :
    ∀ b ∈ linesOf encode heap units, b.length = 4 := by
  intro b hb
  obtain ⟨u, hu, rfl⟩ := List.mem_map.1 hb
  obtain ⟨hu1, hu2⟩ := List.mem_filter.1 hu
  obtain ⟨c, hc, hc4⟩ := henc u hu1 hu2
  simp [lineOf, hc, hc4]

/-- The result of `run` on a sequence of fewer than `2 ^ 31` units without
repeated Operation units, all of which encode to 4 bytes: up to `2 ^ 30`
Operation units the image is the enumeration of the encoded bytes; beyond,
the run stops on a byte address that is written twice. -/
theorem run_eq (encode : Operation → ByteLine) (heap : Ptr → SemanticUnit)
    (units : List Ptr) (hlen : units.length < 2 ^ 31) (hnd : (opsOf heap units).Nodup)
    (henc : ∀ u ∈ units, isOperation heap u = true →
      ∃ b, encodeOperation encode (heap u) 0 = .ok b ∧ b.length = 4) :
    run encode heap units =
      if countOps heap units ≤ 2 ^ 30 then
        .ok (List.enumFrom 0 (linesOf encode heap units).flatten)
      else .error .DuplicateByteAddress := by
  have h4 := linesOf_length_four encode heap units henc
  have hloop := encodeLoop_enum encode heap units hlen hnd
    (fun u hu hop => (henc u hu hop).imp (fun _ h => h.1))
  unfold run
  rw [hloop]
  simp only [bind, Except.bind]
  split_ifs with hc
  · exact imageLoop_enum _ h4 (by rw [length_linesOf]; exact hc)
  · exact imageLoop_overflow _ h4 (by rw [length_linesOf]; omega)


/-- Byte `4 * k + j` of the concatenation of 4-byte lines is byte `j` of line
`k`. -/
theorem flatten_getElem_four (lines : List ByteLine) (h4 : ∀ b ∈ lines, b.length = 4)
    (k : Nat) (hk : k < lines.length) (j : Nat) (hj : j < 4) :
    lines.flatten[4 * k + j]? = some ((lines[k]).getD j 0) := by
  induction lines generalizing k with
  | nil => simp at hk
  | cons b lines ih =>
    have hb : b.length = 4 := h4 b (List.mem_cons_self _ _)
    rw [List.flatten_cons]
    cases k with
    | zero =>
      have hjb : j < b.length := by omega
      rw [List.getElem?_append_left (by omega)]
      simp [List.getD_eq_getElem _ _ hjb, List.getElem?_eq_getElem hjb]
    | succ k =>
      rw [List.getElem?_append_right (by omega), hb,
        show 4 * (k + 1) + j - 4 = 4 * k + j by omega]
      simp only [List.length_cons] at hk
      rw [ih (fun c hc => h4 c (List.mem_cons_of_mem _ hc)) k (by omega)]
      simp

theorem find_enum_zero {υ : Type} (l : List υ) (a : Nat) :
    StdMap.find (List.enumFrom 0 l) a = l[a]? := by
  have := find_enum l 0 a
  rwa [Nat.zero_add] at this

/-- C3, amended. For a sequence of fewer than `2 ^ 31` units in which no
Operation object occurs twice, with `n ≤ 2 ^ 30` Operation units that all
encode to 4 bytes: `run` returns an image, its populated byte addresses are
exactly those below `4 * n`, and the byte at address `4 * k + j` is byte `j`
of the encoding of the `k`-th Operation. -/
theorem run_image (encode : Operation → ByteLine) (heap : Ptr → SemanticUnit)
    (units : List Ptr) (hlen : units.length < 2 ^ 31) (hnd : (opsOf heap units).Nodup)
    (hcount : countOps heap units ≤ 2 ^ 30)
    (henc : ∀ u ∈ units, isOperation heap u = true →
      ∀ pc, ∃ b, encodeOperation encode (heap u) pc = .ok b ∧ b.length = 4) :
    ∃ img, run encode heap units = .ok img ∧
      (∀ a, (StdMap.find img a).isSome = true ↔ a < 4 * countOps heap units) ∧
      (∀ k (hk : k < (opsOf heap units).length) j, j < 4 →
        ∀ b, encodeOperation encode (heap ((opsOf heap units)[k])) k = .ok b →
          StdMap.find img (4 * k + j) = some (b.getD j 0)) := by
  have henc0 : ∀ u ∈ units, isOperation heap u = true →
      ∃ b, encodeOperation encode (heap u) 0 = .ok b ∧ b.length = 4 :=
    fun u hu hop => henc u hu hop 0
  have h4 := linesOf_length_four encode heap units henc0
  have hflat := length_flatten_of_four _ h4
  rw [length_linesOf] at hflat
  refine ⟨_, (run_eq encode heap units hlen hnd henc0).trans (if_pos hcount), ?_, ?_⟩
  · intro a
    rw [find_enum_zero, ← hflat]
    generalize (linesOf encode heap units).flatten = flat
    by_cases ha : a < flat.length
    · simp [List.getElem?_eq_getElem ha, ha]
    · simp [List.getElem?_eq_none (Nat.le_of_not_lt ha), ha]
  · intro k hk j hj b hb
    have hkl : k < (linesOf encode heap units).length := by
      rw [length_linesOf]; exact hk
    rw [find_enum_zero, flatten_getElem_four _ h4 k hkl j hj]
    have hline : (linesOf encode heap units)[k] = b := by
      simp only [linesOf, List.getElem_map, lineOf]
      rw [encodeOperation_pc_irrel encode _ 0 k, hb]
    rw [hline]


/-- Every unit of `nopHeap` encodes to 4 bytes with the sample encoder. -/
theorem nopHeap_encodes (u : Ptr) (pc : Nat) :
    ∃ b, encodeOperation sampleEncode (nopHeap u) pc = .ok b ∧ b.length = 4 :=
  ⟨_, encodeOperation_pc_irrel sampleEncode (nopHeap u) pc 0, by decide⟩

theorem opsOf_nopHeap (l : List Ptr) : opsOf nopHeap l = l :=
  List.filter_eq_self.2 (fun _ _ => rfl)

/-- With `nop` objects at `n` distinct addresses, `2 ^ 30 < n < 2 ^ 31`, the
run stops on a byte address that is written twice. -/
theorem run_nopHeap_range (n : Nat) (h1 : 2 ^ 30 < n) (h2 : n < 2 ^ 31) :
    run sampleEncode nopHeap (List.range n) = .error .DuplicateByteAddress := by
  have hlen : (List.range n).length < 2 ^ 31 := by rw [List.length_range]; exact h2
  have hnd : (opsOf nopHeap (List.range n)).Nodup := by
    rw [opsOf_nopHeap]; exact List.nodup_range n
  have hc : countOps nopHeap (List.range n) = n := by
    rw [countOps, opsOf_nopHeap, List.length_range]
  rw [run_eq sampleEncode nopHeap (List.range n) hlen hnd
    (fun u _ _ => nopHeap_encodes u 0), hc, if_neg (by omega)]

/-- The Operation units of `[Label "L", add, nop]` in `sampleHeap` encode to
4 bytes with the sample encoder. -/
theorem sampleHeap_encodes : ∀ u ∈ [0, 1, 2], isOperation sampleHeap u = true →
    ∀ pc, ∃ b, encodeOperation sampleEncode (sampleHeap u) pc = .ok b ∧ b.length = 4 := by
  intro u hu hop pc
  rw [encodeOperation_pc_irrel sampleEncode (sampleHeap u) pc 0]
  simp only [List.mem_cons, List.mem_singleton, List.not_mem_nil, or_false] at hu
  rcases hu with rfl | rfl | rfl
  · exact absurd hop (by decide)
  · exact ⟨_, rfl, by decide⟩
  · exact ⟨_, rfl, by decide⟩

/-- C3, amended, at `[Label "L", add, nop]`: two operations populate exactly
the 8 byte addresses below 8. -/
theorem run_image_witness :
    ∃ img, run sampleEncode sampleHeap [0, 1, 2] = .ok img ∧
      ∀ a, (StdMap.find img a).isSome = true ↔ a < 8 := by
  obtain ⟨img, h1, h2, _⟩ := run_image sampleEncode sampleHeap [0, 1, 2] (by decide)
    (by decide) (by decide) sampleHeap_encodes
  exact ⟨img, h1, h2⟩

/-- C3 as stated fails. (1) Two Operations in sequence that are the same
object: the second is looked up at the same word address as the first and the
run stops with `DuplicateWordAddress`.  (2) `2 ^ 30 + 1` distinct `nop`
Operations: the byte address of the last one wraps to 0 and the run stops with
`DuplicateByteAddress`.  (3) `2 ^ 31` units, the first a `nop` that encodes to
4 bytes and the others labels: no unit is visited and the image is empty. -/
theorem run_image_counterexample :
    run sampleEncode nopHeap [0, 0] = .error .DuplicateWordAddress ∧
    run sampleEncode nopHeap (List.range (2 ^ 30 + 1)) = .error .DuplicateByteAddress ∧
    (run sampleEncode oneOpHeap (List.range (2 ^ 31)) = .ok [] ∧
      0 ∈ List.range (2 ^ 31) ∧ isOperation oneOpHeap 0 = true ∧
      encodeOperation sampleEncode (oneOpHeap 0) 0 = .ok [0, 0, 0, 128]) := by
  refine ⟨by decide, run_nopHeap_range _ (by norm_num) (by norm_num), ?_,
    List.mem_range.2 (by norm_num), by decide, by decide⟩
  unfold run
  rw [layoutPass, visitedUnits_of_length_eq (List.length_range _)]
  rfl


/-! ### The duplicate checks -/

theorem loopCount_lt (n : Nat) : loopCount n < 2 ^ 31 := by
  unfold loopCount castInt
  split_ifs with h
  · rw [Int.toNat_ofNat]; exact h
  · have : ((n % 2 ^ 32 : Nat) : Int) - 2 ^ 32 < 0 := by
      have := Nat.mod_lt n (show 0 < 2 ^ 32 by norm_num)
      omega
    rw [Int.toNat_eq_zero.2 (by omega)]
    norm_num

theorem visitedUnits_length_lt (units : List Ptr) : (visitedUnits units).length < 2 ^ 31 := by
  unfold visitedUnits
  rw [List.length_take]
  exact lt_of_le_of_lt (Nat.min_le_left _ _) (loopCount_lt _)

/-- The result of `run` only depends on the units its loops reach. -/
theorem run_visited (encode : Operation → ByteLine) (heap : Ptr → SemanticUnit)
    (units : List Ptr) : run encode heap units = run encode heap (visitedUnits units) := by
  unfold run layoutPass
  rw [visitedUnits_of_lt (visitedUnits_length_lt units)]

/-- C4, amended. For a sequence in which no Operation object occurs twice and
whose Operations all encode to 4 bytes, `run` never stops with
`DuplicateWordAddress`; and when the sequence has at most `2 ^ 30` Operation
units, it never stops with `DuplicateByteAddress` either. -/
theorem run_no_duplicate (encode : Operation → ByteLine) (heap : Ptr → SemanticUnit)
    (units : List Ptr) (hnd : (opsOf heap units).Nodup)
    (henc : ∀ u ∈ units, isOperation heap u = true →
      ∀ pc, ∃ b, encodeOperation encode (heap u) pc = .ok b ∧ b.length = 4) :
    run encode heap units ≠ .error .DuplicateWordAddress ∧
    (countOps heap units ≤ 2 ^ 30 → run encode heap units ≠ .error .DuplicateByteAddress) := by
  have hsub : (opsOf heap (visitedUnits units)).Sublist (opsOf heap units) :=
    (List.take_sublist _ _).filter _
  have key := run_eq encode heap (visitedUnits units) (visitedUnits_length_lt units)
    (hnd.sublist hsub)
    (fun u hu hop => henc u (List.mem_of_mem_take hu) hop 0)
  rw [run_visited, key]
  constructor
  · split_ifs <;> simp
  · intro hc
    have hle : countOps heap (visitedUnits units) ≤ 2 ^ 30 :=
      le_trans hsub.length_le hc
    rw [if_pos hle]
    simp

/-- C4, amended, at `[Label "L", add, nop]`. -/
theorem run_no_duplicate_witness :
    run sampleEncode sampleHeap [0, 1, 2] ≠ .error .DuplicateWordAddress ∧
    run sampleEncode sampleHeap [0, 1, 2] ≠ .error .DuplicateByteAddress :=
  ⟨(run_no_duplicate sampleEncode sampleHeap [0, 1, 2] (by decide) sampleHeap_encodes).1,
   (run_no_duplicate sampleEncode sampleHeap [0, 1, 2] (by decide) sampleHeap_encodes).2
     (by decide)⟩

/-- C4 as stated fails: both checks can be reached.  (1) With the same `add`
object at positions 0 and 1, the second loop finds word address 1 occupied
when it comes to position 1.  (2) With `2 ^ 30 + 2` distinct `nop` objects,
the byte address `2 ^ 30 * 4` computed in `unsigned int` is 0, which is
occupied. -/
theorem run_no_duplicate_counterexample :
    run sampleEncode sampleHeap [1, 1] = .error .DuplicateWordAddress ∧
    run sampleEncode nopHeap (List.range (2 ^ 30 + 2)) = .error .DuplicateByteAddress :=
  ⟨by decide, run_nopHeap_range _ (by norm_num) (by norm_num)⟩



/-! ### The encoder: `brr`, `nop`, operand counts, unknown mnemonics -/

/-- C11. A `brr` operation encodes exactly when it has 2 operands, both
direct registers, whose identifiers resolve; the result is then the MOVE
format with sub-opcode BRR, direction bit 0, immediate 0 and the two resolved
indices in operand order.  With 2 operands that are not both direct registers
the encoding fails with `InvalidOperandCombination`. -/
theorem encodeOperation_brr (encode : Operation → ByteLine) (op : SemanticUnit) (pc : Nat)
    (hty : op.type = .UNIT_OPERATION) (hm : op.str = "brr") :
    ((∃ b, encodeOperation encode op pc = .ok b) ↔
      (op.nOperands = 2 ∧ (op.operand 0).isDirectGpr = true ∧
        (op.operand 1).isDirectGpr = true ∧
        ∃ r0 r1, getGprNum (op.operand 0).str = .ok r0 ∧
          getGprNum (op.operand 1).str = .ok r1)) ∧
    (∀ r0 r1, op.nOperands = 2 → (op.operand 0).isDirectGpr = true →
      (op.operand 1).isDirectGpr = true → getGprNum (op.operand 0).str = .ok r0 →
      getGprNum (op.operand 1).str = .ok r1 →
      encodeOperation encode op pc = .ok (encode (.setMOVE .BRR 0 0 r0 r1))) ∧
    (op.nOperands = 2 →
      ¬ ((op.operand 0).isDirectGpr = true ∧ (op.operand 1).isDirectGpr = true) →
      encodeOperation encode op pc = .error .InvalidOperandCombination) := by
  have hok : ∀ r0 r1, op.nOperands = 2 → (op.operand 0).isDirectGpr = true →
      (op.operand 1).isDirectGpr = true → getGprNum (op.operand 0).str = .ok r0 →
      getGprNum (op.operand 1).str = .ok r1 →
      encodeOperation encode op pc = .ok (encode (.setMOVE .BRR 0 0 r0 r1)) := by
    intro r0 r1 hn d0 d1 h0 h1
    simp [encodeOperation, hty, hm, hn, d0, d1, h0, h1, bind, Except.bind, pure, Except.pure]
  refine ⟨⟨?_, ?_⟩, hok, ?_⟩
  · rintro ⟨b, hb⟩
    by_cases hn : op.nOperands = 2
    · by_cases hd : (op.operand 0).isDirectGpr = true ∧ (op.operand 1).isDirectGpr = true
      · refine ⟨hn, hd.1, hd.2, ?_⟩
        cases h0 : getGprNum (op.operand 0).str with
        | error e =>
          simp [encodeOperation, hty, hm, hn, hd.1, hd.2, h0, bind, Except.bind] at hb
        | ok r0 =>
          cases h1 : getGprNum (op.operand 1).str with
          | error e =>
            simp [encodeOperation, hty, hm, hn, hd.1, hd.2, h0, h1, bind, Except.bind] at hb
          | ok r1 => exact ⟨r0, r1, rfl, rfl⟩
      · simp [encodeOperation, hty, hm, hn, hd] at hb
    · simp [encodeOperation, hty, hm, hn] at hb
  · rintro ⟨hn, d0, d1, r0, r1, h0, h1⟩
    exact ⟨_, hok r0 r1 hn d0 d1 h0 h1⟩
  · intro hn hd
    simp [encodeOperation, hty, hm, hn, hd]

/-- C11 at `brr %r1, %r30` (encodes), `brr (%r1), %r2` and `brr 5, %r2`
(rejected). -/
theorem encodeOperation_brr_witness :
    encodeOperation sampleEncode
        (mkOperation "brr" [.directGpr "%r1", .directGpr "%r30"]) 0
      = .ok (sampleEncode (.setMOVE .BRR 0 0 1 30)) ∧
    encodeOperation sampleEncode
        (mkOperation "brr" [.indirectGpr "%r1", .directGpr "%r2"]) 0
      = .error .InvalidOperandCombination ∧
    encodeOperation sampleEncode
        (mkOperation "brr" [.constInt 5, .directGpr "%r2"]) 0
      = .error .InvalidOperandCombination :=
  ⟨(encodeOperation_brr sampleEncode
      (mkOperation "brr" [.directGpr "%r1", .directGpr "%r30"]) 0 rfl rfl).2.1 1 30
      rfl rfl rfl (by decide) (by decide),
   (encodeOperation_brr sampleEncode
      (mkOperation "brr" [.indirectGpr "%r1", .directGpr "%r2"]) 0 rfl rfl).2.2
      rfl (by decide),
   (encodeOperation_brr sampleEncode
      (mkOperation "brr" [.constInt 5, .directGpr "%r2"]) 0 rfl rfl).2.2
      rfl (by decide)⟩

/-- C12. A `nop` with at least one operand fails with
`InvalidOperandCombination`; a `nop` with no operand encodes to the ALU format
with the three sub-opcodes NOP and addressing mode, immediate, source 1,
source 2 and destination all 0. -/
theorem encodeOperation_nop (encode : Operation → ByteLine) (op : SemanticUnit) (pc : Nat)
    (hty : op.type = .UNIT_OPERATION) (hm : op.str = "nop") :
    (op.nOperands ≠ 0 → encodeOperation encode op pc = .error .InvalidOperandCombination) ∧
    (op.nOperands = 0 →
      encodeOperation encode op pc = .ok (encode (.setALU .NOP .NOP .NOP 0 0 0 0 0))) := by
  constructor
  · intro hn
    simp [encodeOperation, hty, hm, hn]
  · intro hn
    simp [encodeOperation, hty, hm, hn, pure, Except.pure]

/-- C12 at `nop` and at `nop %r1`. -/
theorem encodeOperation_nop_witness :
    encodeOperation sampleEncode (mkOperation "nop" []) 0
      = .ok (sampleEncode (.setALU .NOP .NOP .NOP 0 0 0 0 0)) ∧
    encodeOperation sampleEncode (mkOperation "nop" [.directGpr "%r1"]) 0
      = .error .InvalidOperandCombination :=
  ⟨(encodeOperation_nop sampleEncode (mkOperation "nop" []) 0 rfl rfl).2 rfl,
   (encodeOperation_nop sampleEncode (mkOperation "nop" [.directGpr "%r1"]) 0 rfl rfl).1
     (by decide)⟩

/-- C13. A `brm`, `brr` or `ld` whose operand count is not 2, and an `add`
whose operand count is not 3, fails with `InvalidOperandCombination`, whatever
its operands are. -/
theorem encodeOperation_operand_count (encode : Operation → ByteLine) (op : SemanticUnit)
    (pc : Nat) (hty : op.type = .UNIT_OPERATION) :
    ((op.str = "brm" ∨ op.str = "brr" ∨ op.str = "ld") → op.nOperands ≠ 2 →
      encodeOperation encode op pc = .error .InvalidOperandCombination) ∧
    (op.str = "add" → op.nOperands ≠ 3 →
      encodeOperation encode op pc = .error .InvalidOperandCombination) := by
  constructor
  · rintro (hm | hm | hm) hn <;> simp [encodeOperation, hty, hm, hn]
  · intro hm hn
    simp [encodeOperation, hty, hm, hn]

/-- C13 at `ld` with 1 operand, `ld` with 3 operands and `add` with 2
operands. -/
theorem encodeOperation_operand_count_witness :
    encodeOperation sampleEncode (mkOperation "ld" [.constInt 1]) 0
      = .error .InvalidOperandCombination ∧
    encodeOperation sampleEncode
        (mkOperation "ld" [.constInt 1, .directGpr "%r1", .directGpr "%r2"]) 0
      = .error .InvalidOperandCombination ∧
    encodeOperation sampleEncode
        (mkOperation "add" [.directGpr "%r1", .directGpr "%r2"]) 0
      = .error .InvalidOperandCombination :=
  ⟨(encodeOperation_operand_count sampleEncode (mkOperation "ld" [.constInt 1]) 0 rfl).1
      (Or.inr (Or.inr rfl)) (by decide),
   (encodeOperation_operand_count sampleEncode
      (mkOperation "ld" [.constInt 1, .directGpr "%r1", .directGpr "%r2"]) 0 rfl).1
      (Or.inr (Or.inr rfl)) (by decide),
   (encodeOperation_operand_count sampleEncode
      (mkOperation "add" [.directGpr "%r1", .directGpr "%r2"]) 0 rfl).2 rfl (by decide)⟩

/-- C14. An operation whose mnemonic is none of `brm`, `brr`, `ld`, `add`,
`nop` fails with `UnsupportedOperation`, whatever its operands are. -/
theorem encodeOperation_unknown (encode : Operation → ByteLine) (op : SemanticUnit)
    (pc : Nat) (hty : op.type = .UNIT_OPERATION)
    (h1 : op.str ≠ "brm") (h2 : op.str ≠ "brr") (h3 : op.str ≠ "ld")
    (h4 : op.str ≠ "add") (h5 : op.str ≠ "nop") :
    encodeOperation encode op pc = .error .UnsupportedOperation := by
  simp [encodeOperation, hty, h1, h2, h3, h4, h5]

/-- C14 at `sub %r1, %r2, %r3` and at `NOP` (the match is case-sensitive). -/
theorem encodeOperation_unknown_witness :
    encodeOperation sampleEncode
        (mkOperation "sub" [.directGpr "%r1", .directGpr "%r2", .directGpr "%r3"]) 0
      = .error .UnsupportedOperation ∧
    encodeOperation sampleEncode (mkOperation "NOP" []) 0 = .error .UnsupportedOperation :=
  ⟨encodeOperation_unknown sampleEncode
      (mkOperation "sub" [.directGpr "%r1", .directGpr "%r2", .directGpr "%r3"]) 0 rfl
      (by decide) (by decide) (by decide) (by decide) (by decide),
   encodeOperation_unknown sampleEncode (mkOperation "NOP" []) 0 rfl
      (by decide) (by decide) (by decide) (by decide) (by decide)⟩


/-! ### Register identifiers -/

/-- C15. For every `N ≤ 31` the identifier `%r` followed by the decimal
digits of `N` resolves to `N`; for `N ≤ 9` so does the two-digit form `%r0N`;
and every index that `getGprNum` returns is at most 31. -/
theorem getGprNum_decimal :
    (∀ N, N ≤ 31 → getGprNum ("%r" ++ toString N) = .ok N) ∧
    (∀ N, N ≤ 9 → getGprNum ("%r0" ++ toString N) = .ok N) ∧
    (∀ id n, getGprNum id = .ok n → n ≤ 31) :=
  ⟨by decide, by decide, fun _ _ h => getGprNum_le h⟩

/-- C15 at `%r31`, `%r7` and `%r07`. -/
theorem getGprNum_decimal_witness :
    getGprNum "%r31" = .ok 31 ∧ getGprNum "%r7" = .ok 7 ∧ getGprNum "%r07" = .ok 7 :=
  ⟨getGprNum_decimal.1 31 (by decide), getGprNum_decimal.1 7 (by decide),
   getGprNum_decimal.2.1 7 (by decide)⟩

/-- C16. A string that is not `%r` followed by one or two decimal digits of
value at most 31 is rejected with `InvalidRegisterId`; and only such strings
are rejected. -/
theorem getGprNum_invalid (id : String) :
    (isRegisterId id = false → getGprNum id = .error .InvalidRegisterId) ∧
    (getGprNum id = .error .InvalidRegisterId → isRegisterId id = false) := by
  obtain ⟨l⟩ := id
  rcases l with _ | ⟨a, _ | ⟨b, _ | ⟨c, _ | ⟨d, _ | ⟨e, l⟩⟩⟩⟩⟩
  · simp [isRegisterId, getGprNum, charAt]
  · simp [isRegisterId, getGprNum, charAt]
  · simp [isRegisterId, getGprNum, charAt, isdigit]
  · simp only [isRegisterId, getGprNum, charAt, String.length, List.getD_cons_zero,
      List.getD_cons_succ, List.length_cons, List.length_nil]
    by_cases ha : a = '%' <;> by_cases hb : b = 'r' <;> by_cases hc : isdigit c = true <;>
      simp [ha, hb, hc]
  · simp only [isRegisterId, getGprNum, charAt, String.length, List.getD_cons_zero,
      List.getD_cons_succ, List.length_cons, List.length_nil]
    by_cases ha : a = '%' <;> by_cases hb : b = 'r' <;> by_cases hc : isdigit c = true <;>
      by_cases hd : isdigit d = true <;>
      by_cases hx : 10 * digitVal c + digitVal d ≤ 31 <;> simp [ha, hb, hc, hd, hx]
  · simp only [isRegisterId, getGprNum, charAt, String.length, List.getD_cons_zero,
      List.getD_cons_succ, List.length_cons]
    by_cases ha : a = '%' <;> by_cases hb : b = 'r' <;> by_cases hc : isdigit c = true <;>
      simp [ha, hb, hc]

/-- C16 at `%r32`, `%rx`, the empty string, `%`, `%r`, `%r1x`, `%r123` and
`%r99`. -/
theorem getGprNum_invalid_witness :
    getGprNum "%r32" = .error .InvalidRegisterId ∧
    getGprNum "%rx" = .error .InvalidRegisterId ∧
    getGprNum "" = .error .InvalidRegisterId ∧
    getGprNum "%" = .error .InvalidRegisterId ∧
    getGprNum "%r" = .error .InvalidRegisterId ∧
    getGprNum "%r1x" = .error .InvalidRegisterId ∧
    getGprNum "%r123" = .error .InvalidRegisterId ∧
    getGprNum "%r99" = .error .InvalidRegisterId :=
  ⟨(getGprNum_invalid "%r32").1 (by decide), (getGprNum_invalid "%rx").1 (by decide),
   (getGprNum_invalid "").1 (by decide), (getGprNum_invalid "%").1 (by decide),
   (getGprNum_invalid "%r").1 (by decide), (getGprNum_invalid "%r1x").1 (by decide),
   (getGprNum_invalid "%r123").1 (by decide), (getGprNum_invalid "%r99").1 (by decide)⟩


/-! ### Word addresses and failures -/

/-- C19. The encoder ignores the word address: for every operation and every
two word addresses the outcome (the encoded instruction or the failure) is
the same. -/
theorem encodeOperation_ignores_pc (encode : Operation → ByteLine) (op : SemanticUnit)
    (pc1 pc2 : Nat) : encodeOperation encode op pc1 = encodeOperation encode op pc2 :=
  encodeOperation_pc_irrel encode op pc1 pc2

/-- The second loop of `run` fails as soon as one of the units it visits is an
Operation that does not encode, whatever the tables are. -/
theorem encodeLoop_fails (encode : Operation → ByteLine) (heap : Ptr → SemanticUnit)
    (unit_addr : StdMap Ptr Nat) (l : List Ptr) (st : StdMap Nat ByteLine)
    (hfail : ∃ u ∈ l, isOperation heap u = true ∧
      ∃ e, encodeOperation encode (heap u) 0 = .error e) :
    ∃ e, l.foldlM (encodeStep encode heap unit_addr) st = .error e := by
  induction l generalizing st with
  | nil => simp at hfail
  | cons w l ih =>
    rw [List.foldlM_cons]
    cases hstep : encodeStep encode heap unit_addr st w with
    | error e => exact ⟨e, rfl⟩
    | ok st' =>
      simp only [bind, Except.bind]
      apply ih
      obtain ⟨u, hu, hop, e, he⟩ := hfail
      rcases List.mem_cons.1 hu with rfl | hmem
      · exfalso
        have hty : (heap u).type = .UNIT_OPERATION := by simpa [isOperation] using hop
        simp only [encodeStep, hty, if_true] at hstep
        split_ifs at hstep
        rw [encodeOperation_pc_irrel encode (heap u) _ 0, he] at hstep
        simp [bind, Except.bind] at hstep
      · exact ⟨u, hmem, hop, e, he⟩

/-- A sequence with an Operation that does not encode has a first such
Operation. -/
theorem exists_first_failure (encode : Operation → ByteLine) (heap : Ptr → SemanticUnit)
    (l : List Ptr)
    (hfail : ∃ u ∈ l, isOperation heap u = true ∧
      ∃ e, encodeOperation encode (heap u) 0 = .error e) :
    ∃ pre u suf e, l = pre ++ u :: suf ∧
      (∀ w ∈ pre, isOperation heap w = true →
        ∃ b, encodeOperation encode (heap w) 0 = .ok b) ∧
      isOperation heap u = true ∧ encodeOperation encode (heap u) 0 = .error e := by
  induction l with
  | nil => simp at hfail
  | cons w l ih =>
    by_cases hw : isOperation heap w = true ∧
        ∃ e, encodeOperation encode (heap w) 0 = .error e
    · obtain ⟨hop, e, he⟩ := hw
      exact ⟨[], w, l, e, rfl, by simp, hop, he⟩
    · have hrest : ∃ u ∈ l, isOperation heap u = true ∧
          ∃ e, encodeOperation encode (heap u) 0 = .error e := by
        obtain ⟨u, hu, hop, e, he⟩ := hfail
        rcases List.mem_cons.1 hu with rfl | hmem
        · exact absurd ⟨hop, e, he⟩ hw
        · exact ⟨u, hmem, hop, e, he⟩
      obtain ⟨pre, u, suf, e, hl, hpre, hop, he⟩ := ih hrest
      refine ⟨w :: pre, u, suf, e, by rw [hl]; rfl, ?_, hop, he⟩
      intro x hx hxop
      rcases List.mem_cons.1 hx with rfl | hmem
      · cases hx0 : encodeOperation encode (heap x) 0 with
        | ok b => exact ⟨b, rfl⟩
        | error e0 => exact absurd ⟨hxop, e0, hx0⟩ hw
      · exact hpre x hmem hxop

/-- The run stops with the error of the first Operation that does not encode,
when no Operation object occurs twice and the sequence has fewer than `2 ^ 31`
units. -/
theorem run_first_failure (encode : Operation → ByteLine) (heap : Ptr → SemanticUnit)
    (pre suf : List Ptr) (u : Ptr) (e : AsmError)
    (hlen : (pre ++ u :: suf).length < 2 ^ 31)
    (hnd : (opsOf heap (pre ++ u :: suf)).Nodup)
    (hpre : ∀ w ∈ pre, isOperation heap w = true →
      ∃ b, encodeOperation encode (heap w) 0 = .ok b)
    (hop : isOperation heap u = true) (he : encodeOperation encode (heap u) 0 = .error e) :
    run encode heap (pre ++ u :: suf) = .error e := by
  have hty : (heap u).type = .UNIT_OPERATION := by simpa [isOperation] using hop
  have hhead := encodeLoop_aux encode heap (layoutLoop heap (pre ++ u :: suf)).unit_addr
    pre []
    (by
      intro l1 w l2 hs hwop
      rw [List.nil_append] at hs
      subst hs
      have hassoc : (l1 ++ w :: l2) ++ u :: suf = l1 ++ w :: (l2 ++ u :: suf) := by simp
      rw [hassoc] at hnd hlen ⊢
      exact layoutLoop_find_unit heap l1 _ w (by omega)
        (not_mem_of_ops_nodup heap l1 _ w hnd hwop))
    hpre
  have hpc := layoutLoop_find_unit heap pre suf u (by omega)
    (not_mem_of_ops_nodup heap pre suf u hnd hop)
  have hnone : StdMap.find (List.enumFrom 0 (linesOf encode heap pre))
      (countOps heap pre) = none :=
    find_eq_none_of_lt _ _ (by
      intro x hx
      have := enum_keys_lt _ x hx
      rwa [length_linesOf] at this)
  have hstep : encodeStep encode heap (layoutLoop heap (pre ++ u :: suf)).unit_addr
      (List.enumFrom 0 (linesOf encode heap pre)) u = .error e := by
    simp only [encodeStep, hty, if_true, hpc, Option.getD_some, hnone, Option.isSome_none,
      Bool.false_eq_true, if_false, encodeOperation_pc_irrel encode (heap u) _ 0, he,
      bind, Except.bind]
  unfold run
  rw [layoutPass, visitedUnits_of_lt hlen]
  unfold encodeLoop
  rw [List.foldlM_append]
  simp only [linesOf, opsOf, List.filter_nil, List.map_nil, List.enumFrom_nil,
    List.nil_append] at hhead
  rw [hhead]
  simp only [bind, Except.bind, List.foldlM_cons]
  simp only [linesOf, opsOf] at hstep
  rw [hstep]


/-- C17, amended. For a sequence of fewer than `2 ^ 31` units in which some
Operation does not encode, `run` returns no image; and when no Operation
object occurs twice, the error of the run is the error of the first Operation
that does not encode (such a first Operation exists). -/
theorem run_fail_fast (encode : Operation → ByteLine) (heap : Ptr → SemanticUnit)
    (units : List Ptr) (hlen : units.length < 2 ^ 31)
    (hfail : ∃ u ∈ units, isOperation heap u = true ∧
      ∃ pc e, encodeOperation encode (heap u) pc = .error e) :
    (∃ e, run encode heap units = .error e) ∧
    (∀ pre u suf e, units = pre ++ u :: suf → (opsOf heap units).Nodup →
      (∀ w ∈ pre, isOperation heap w = true →
        ∀ pc, ∃ b, encodeOperation encode (heap w) pc = .ok b) →
      isOperation heap u = true → (∀ pc, encodeOperation encode (heap u) pc = .error e) →
      run encode heap units = .error e) ∧
    (∃ pre u suf e, units = pre ++ u :: suf ∧
      (∀ w ∈ pre, isOperation heap w = true →
        ∀ pc, ∃ b, encodeOperation encode (heap w) pc = .ok b) ∧
      isOperation heap u = true ∧ ∀ pc, encodeOperation encode (heap u) pc = .error e) := by
  have hfail0 : ∃ u ∈ units, isOperation heap u = true ∧
      ∃ e, encodeOperation encode (heap u) 0 = .error e := by
    obtain ⟨u, hu, hop, pc, e, he⟩ := hfail
    exact ⟨u, hu, hop, e, by rw [encodeOperation_pc_irrel encode (heap u) 0 pc]; exact he⟩
  refine ⟨?_, ?_, ?_⟩
  · obtain ⟨e, he⟩ := encodeLoop_fails encode heap (layoutPass heap units).unit_addr units []
      hfail0
    refine ⟨e, ?_⟩
    unfold run
    rw [visitedUnits_of_lt hlen]
    unfold encodeLoop
    rw [he]
    rfl
  · intro pre u suf e hs hnd hpre hop he
    subst hs
    exact run_first_failure encode heap pre suf u e hlen hnd
      (fun w hw hwop => hpre w hw hwop 0) hop (he 0)
  · obtain ⟨pre, u, suf, e, hs, hpre, hop, he⟩ := exists_first_failure encode heap units hfail0
    refine ⟨pre, u, suf, e, hs, ?_, hop, ?_⟩
    · intro w hw hwop pc
      rw [encodeOperation_pc_irrel encode (heap w) pc 0]
      exact hpre w hw hwop
    · intro pc
      rw [encodeOperation_pc_irrel encode (heap u) pc 0]
      exact he

/-- C17, amended, at `[nop, nop, sub, nop]`: the run stops with the
`UnsupportedOperation` of `sub`, the third unit. -/
theorem run_fail_fast_witness :
    run sampleEncode unsupportedHeap [1, 2, 0, 3] = .error .UnsupportedOperation := by
  have hfail : ∃ u ∈ [1, 2, 0, 3], isOperation unsupportedHeap u = true ∧
      ∃ pc e, encodeOperation sampleEncode (unsupportedHeap u) pc = .error e :=
    ⟨0, by decide, by decide, 0, .UnsupportedOperation, by decide⟩
  have hpre : ∀ w ∈ [1, 2], isOperation unsupportedHeap w = true →
      ∀ pc, ∃ b, encodeOperation sampleEncode (unsupportedHeap w) pc = .ok b := by
    intro w hw _ pc
    rw [encodeOperation_pc_irrel sampleEncode (unsupportedHeap w) pc 0]
    simp only [List.mem_cons, List.mem_singleton, List.not_mem_nil, or_false] at hw
    rcases hw with rfl | rfl <;> exact ⟨_, rfl⟩
  exact (run_fail_fast sampleEncode unsupportedHeap [1, 2, 0, 3] (by decide) hfail).2.1
    [1, 2] 0 [3] .UnsupportedOperation rfl (by decide) hpre (by decide) (fun _ => rfl)

/-- C17 as stated fails. (1) In `[nop, nop, sub]` with the same `nop` object
at positions 0 and 1, the run stops with `DuplicateWordAddress`, not with the
`UnsupportedOperation` of `sub`, the first Operation that does not encode.
(2) For `2 ^ 31` units, the first one `sub`, no unit is visited and the empty
image is returned. -/
theorem run_fail_fast_counterexample :
    (run sampleEncode unsupportedHeap [1, 1, 0] = .error .DuplicateWordAddress ∧
      encodeOperation sampleEncode (unsupportedHeap 1) 0 = .ok [0, 0, 0, 128] ∧
      encodeOperation sampleEncode (unsupportedHeap 0) 0 = .error .UnsupportedOperation) ∧
    (run sampleEncode unsupportedHeap (List.range (2 ^ 31)) = .ok [] ∧
      0 ∈ List.range (2 ^ 31) ∧ isOperation unsupportedHeap 0 = true) := by
  refine ⟨by decide, ?_, List.mem_range.2 (by norm_num), by decide⟩
  unfold run
  rw [layoutPass, visitedUnits_of_length_eq (List.length_range _)]
  rfl


/-! ### Labels and the image -/

theorem isLabel_eq_not_isOperation (heap : Ptr → SemanticUnit) (u : Ptr) :
    isLabel heap u = !isOperation heap u := by
  unfold isLabel isOperation
  cases (heap u).type <;> rfl

theorem removeLabels_eq_opsOf (heap : Ptr → SemanticUnit) (l : List Ptr) :
    removeLabels heap l = opsOf heap l := by
  unfold removeLabels opsOf
  congr 1
  funext u
  rw [isLabel_eq_not_isOperation, Bool.not_not]

theorem layoutStep_pc_of_not_op (heap : Ptr → SemanticUnit) (st : Layout) (w : Ptr)
    (h : isOperation heap w = false) : (layoutStep heap st w).pc = st.pc := by
  have hty : ¬ (heap w).type = .UNIT_OPERATION := by simpa [isOperation] using h
  simp only [layoutStep, hty, if_false]
  split_ifs <;> rfl

theorem layoutStep_pc_of_op (heap : Ptr → SemanticUnit) (st : Layout) (w : Ptr)
    (h : isOperation heap w = true) : (layoutStep heap st w).pc = (st.pc + 1) % 2 ^ 32 := by
  have hty : (heap w).type = .UNIT_OPERATION := by simpa [isOperation] using h
  simp only [layoutStep, hty]
  rfl

/-- The entry of `unit_addr` for an Operation unit does not depend on the
units of the sequence that are not Operations. -/
theorem layout_foldl_find_opsOf (heap : Ptr → SemanticUnit) (l : List Ptr) (st st' : Layout)
    (u : Ptr) (hu : isOperation heap u = true) (hpc : st.pc = st'.pc)
    (hfind : StdMap.find st.unit_addr u = StdMap.find st'.unit_addr u) :
    StdMap.find (l.foldl (layoutStep heap) st).unit_addr u
      = StdMap.find ((opsOf heap l).foldl (layoutStep heap) st').unit_addr u := by
  induction l generalizing st st' with
  | nil => exact hfind
  | cons w l ih =>
    rw [List.foldl_cons]
    by_cases hw : isOperation heap w = true
    · have e : opsOf heap (w :: l) = w :: opsOf heap l := by simp [opsOf, hw]
      rw [e, List.foldl_cons]
      apply ih
      · rw [layoutStep_pc_of_op heap st w hw, layoutStep_pc_of_op heap st' w hw, hpc]
      · rw [layoutStep_unit_addr, layoutStep_unit_addr, hpc]
        by_cases hwu : w = u
        · rw [hwu, StdMap.find_insert_self, StdMap.find_insert_self]
        · rw [StdMap.find_insert_ne _ _ hwu, StdMap.find_insert_ne _ _ hwu, hfind]
    · have hw' : isOperation heap w = false := by simpa using hw
      have e : opsOf heap (w :: l) = opsOf heap l := by simp [opsOf, hw']
      rw [e]
      apply ih
      · rw [layoutStep_pc_of_not_op heap st w hw', hpc]
      · rw [layoutStep_unit_addr, StdMap.find_insert_ne _ _ (by rintro rfl; exact hw hu), hfind]

/-- The second loop of `run` skips the units that are not Operations, and
reads `unit_addr` only at Operation units. -/
theorem encodeLoop_opsOf (encode : Operation → ByteLine) (heap : Ptr → SemanticUnit)
    (ua ua' : StdMap Ptr Nat)
    (hfind : ∀ u, isOperation heap u = true → StdMap.find ua u = StdMap.find ua' u)
    (l : List Ptr) (st : StdMap Nat ByteLine) :
    l.foldlM (encodeStep encode heap ua) st
      = (opsOf heap l).foldlM (encodeStep encode heap ua') st := by
  induction l generalizing st with
  | nil => rfl
  | cons w l ih =>
    rw [List.foldlM_cons]
    by_cases hw : isOperation heap w = true
    · have e : opsOf heap (w :: l) = w :: opsOf heap l := by simp [opsOf, hw]
      have hstep : encodeStep encode heap ua st w = encodeStep encode heap ua' st w := by
        simp only [encodeStep, hfind w hw]
      rw [e, List.foldlM_cons, hstep]
      cases encodeStep encode heap ua' st w with
      | error x => rfl
      | ok st' => exact ih st'
    · have hw' : isOperation heap w = false := by simpa using hw
      have hty : ¬ (heap w).type = .UNIT_OPERATION := by simpa [isOperation] using hw'
      have e : opsOf heap (w :: l) = opsOf heap l := by simp [opsOf, hw']
      have hstep : encodeStep encode heap ua st w = .ok st := by
        simp only [encodeStep, hty, if_false, pure, Except.pure]
      rw [e, hstep]
      exact ih st

/-- For fewer than `2 ^ 31` units, `run` gives the same result on the sequence
and on its Operation units alone. -/
theorem run_opsOf (encode : Operation → ByteLine) (heap : Ptr → SemanticUnit)
    (units : List Ptr) (hlen : units.length < 2 ^ 31) :
    run encode heap units = run encode heap (opsOf heap units) := by
  have hlen' : (opsOf heap units).length < 2 ^ 31 :=
    lt_of_le_of_lt (countOps_le_length heap units) hlen
  have hops : opsOf heap (opsOf heap units) = opsOf heap units := by
    simp [opsOf]
  unfold run
  rw [layoutPass, layoutPass, visitedUnits_of_lt hlen, visitedUnits_of_lt hlen']
  unfold encodeLoop
  rw [encodeLoop_opsOf encode heap (layoutLoop heap units).unit_addr
    (layoutLoop heap (opsOf heap units)).unit_addr ?_ units []]
  intro u hu
  exact layout_foldl_find_opsOf heap units _ _ u hu rfl rfl


/-- The result of `run` only depends on the objects behind the pointers of
the sequence. -/
theorem run_congr_heap (encode : Operation → ByteLine) (heap heap' : Ptr → SemanticUnit)
    (units : List Ptr) (h : ∀ u ∈ units, heap u = heap' u) :
    run encode heap units = run encode heap' units := by
  have hv : ∀ u ∈ visitedUnits units, heap u = heap' u :=
    fun u hu => h u (List.mem_of_mem_take hu)
  have hlayout : ∀ (l : List Ptr) (st : Layout), (∀ u ∈ l, heap u = heap' u) →
      l.foldl (layoutStep heap) st = l.foldl (layoutStep heap') st := by
    intro l
    induction l with
    | nil => intro st _; rfl
    | cons w l ih =>
      intro st hl
      have hw : layoutStep heap st w = layoutStep heap' st w := by
        simp only [layoutStep, hl w (List.mem_cons_self _ _)]
      rw [List.foldl_cons, List.foldl_cons, hw]
      exact ih _ (fun u hu => hl u (List.mem_cons_of_mem _ hu))
  have hencode : ∀ (ua : StdMap Ptr Nat) (l : List Ptr) (st : StdMap Nat ByteLine),
      (∀ u ∈ l, heap u = heap' u) →
      l.foldlM (encodeStep encode heap ua) st = l.foldlM (encodeStep encode heap' ua) st := by
    intro ua l
    induction l with
    | nil => intro st _; rfl
    | cons w l ih =>
      intro st hl
      have hw : encodeStep encode heap ua st w = encodeStep encode heap' ua st w := by
        simp only [encodeStep, hl w (List.mem_cons_self _ _)]
      rw [List.foldlM_cons, List.foldlM_cons, hw]
      cases encodeStep encode heap' ua st w with
      | error x => rfl
      | ok st' => exact ih st' (fun u hu => hl u (List.mem_cons_of_mem _ hu))
  unfold run layoutPass layoutLoop encodeLoop
  rw [hlayout _ _ hv, hencode _ _ _ hv]

/-- C18, amended. For a sequence of fewer than `2 ^ 31` units, `run` gives
the same result (image or failure) on the sequence and on the sequence with
every Label unit removed; hence two such sequences that have the same
Operation units in the same order give the same result, whatever Label units
they contain. -/
theorem run_labels (encode : Operation → ByteLine) (heap : Ptr → SemanticUnit)
    (units : List Ptr) (hlen : units.length < 2 ^ 31) :
    run encode heap units = run encode heap (removeLabels heap units) ∧
    (∀ (heap' : Ptr → SemanticUnit) (units' : List Ptr), units'.length < 2 ^ 31 →
      removeLabels heap' units' = removeLabels heap units →
      (∀ u ∈ removeLabels heap units, heap' u = heap u) →
      run encode heap' units' = run encode heap units) := by
  refine ⟨by rw [removeLabels_eq_opsOf]; exact run_opsOf encode heap units hlen, ?_⟩
  intro heap' units' hlen' hsame hheap
  rw [removeLabels_eq_opsOf, removeLabels_eq_opsOf] at hsame
  rw [removeLabels_eq_opsOf] at hheap
  rw [run_opsOf encode heap' units' hlen', run_opsOf encode heap units hlen, hsame]
  exact run_congr_heap encode heap' heap _ hheap

/-- C18, amended, at `[Label "L", add, nop]`: the result is that of
`[add, nop]`, and `[add, Label "L", Label "L", nop]` gives the same result. -/
theorem run_labels_witness :
    run sampleEncode sampleHeap [0, 1, 2] = run sampleEncode sampleHeap [1, 2] ∧
    run sampleEncode sampleHeap [1, 0, 0, 2] = run sampleEncode sampleHeap [0, 1, 2] :=
  ⟨(run_labels sampleEncode sampleHeap [0, 1, 2] (by decide)).1,
   (run_labels sampleEncode sampleHeap [0, 1, 2] (by decide)).2 sampleHeap [1, 0, 0, 2]
     (by decide) (by decide) (fun _ _ => rfl)⟩

theorem removeLabels_oneOpHeap_range (n : Nat) :
    removeLabels oneOpHeap (List.range (n + 1)) = [0] := by
  rw [List.range_succ_eq_map]
  unfold removeLabels
  rw [List.filter_cons]
  have h0 : (!isLabel oneOpHeap 0) = true := by decide
  rw [if_pos h0]
  congr 1
  rw [List.filter_eq_nil_iff]
  intro a ha
  obtain ⟨k, _, rfl⟩ := List.mem_map.1 ha
  simp [isLabel, oneOpHeap, mkLabel]

/-- C18 as stated fails for `2 ^ 31` units, a `nop` followed by labels: the
loop bound `(int)units.size()` is negative and the image is empty, whereas the
sequence without its labels is the single `nop` and gives a 4-byte image. -/
theorem run_labels_counterexample :
    run sampleEncode oneOpHeap (List.range (2 ^ 31)) = .ok [] ∧
    run sampleEncode oneOpHeap (removeLabels oneOpHeap (List.range (2 ^ 31)))
      = .ok [(0, 0), (1, 0), (2, 0), (3, 128)] := by
  constructor
  · unfold run
    rw [layoutPass, visitedUnits_of_length_eq (List.length_range _)]
    rfl
  · rw [show (2 : Nat) ^ 31 = (2 ^ 31 - 1) + 1 by norm_num, removeLabels_oneOpHeap_range]
    decide


/-! ### Fields and operations -/

theorem OperCode.toNat_injective {a b : OperCode} (h : a.toNat = b.toNat) : a = b := by
  cases a <;> cases b <;> simp [OperCode.toNat] at h <;> rfl

theorem fieldsEncode_injective {f g : Operation} (h : fieldsEncode f = fieldsEncode g) :
    f = g := by
  cases f <;> cases g <;> simp [fieldsEncode] at h
  · obtain ⟨h1, h2, h3, h4, h5⟩ := h
    rw [OperCode.toNat_injective h1, h2, h3, h4, h5]
  · obtain ⟨h1, h2, h3, h4, h5, h6, h7, h8⟩ := h
    rw [OperCode.toNat_injective h1, OperCode.toNat_injective h2,
      OperCode.toNat_injective h3, h4, h5, h6, h7, h8]


theorem imm16_cast (v : Int) (h0 : 0 ≤ v) (h1 : v ≤ 65535) :
    (((v % 65536).toNat : Nat) : Int) = v := by
  rw [Int.emod_eq_of_lt h0 (by omega), Int.toNat_of_nonneg h0]

/-- The fields that an operation is encoded with determine its mnemonic and
the contributions of its operands. -/
theorem fields_summary (op : SemanticUnit) (pc : Nat) (f : Operation)
    (h : encodeOperation fieldsEncode op pc = .ok (fieldsEncode f)) :
    (op.str, op.operands.map operandInfo) = decodeFields f := by
  obtain ⟨ty, m, ops⟩ := op
  by_cases hty : ty = .UNIT_OPERATION
  swap
  · simp [encodeOperation, hty] at h
  by_cases h1 : m = "brm"
  · subst h1
    rcases ops with _ | ⟨a, _ | ⟨b, _ | ⟨c, l⟩⟩⟩
    · simp [encodeOperation, hty, SemanticUnit.nOperands] at h
    · simp [encodeOperation, hty, SemanticUnit.nOperands] at h
    · cases a <;> cases b <;>
        simp [encodeOperation, hty, SemanticUnit.nOperands, SemanticUnit.operand,
          Operand.isDirectGpr, Operand.isIndirectGpr, Operand.str, bind, Except.bind,
          pure, Except.pure] at h
      all_goals
        repeat' split at h
        all_goals first
          | cases h
          | (have hf := fieldsEncode_injective (Except.ok.inj h)
             subst hf
             simp [decodeFields, operandInfo, *])
    · simp [encodeOperation, hty, SemanticUnit.nOperands] at h
  by_cases h2 : m = "brr"
  · subst h2
    rcases ops with _ | ⟨a, _ | ⟨b, _ | ⟨c, l⟩⟩⟩
    · simp [encodeOperation, hty, SemanticUnit.nOperands] at h
    · simp [encodeOperation, hty, SemanticUnit.nOperands] at h
    · cases a <;> cases b <;>
        simp [encodeOperation, hty, SemanticUnit.nOperands, SemanticUnit.operand,
          Operand.isDirectGpr, Operand.isIndirectGpr, Operand.str, bind, Except.bind,
          pure, Except.pure] at h
      all_goals
        repeat' split at h
        all_goals first
          | cases h
          | (have hf := fieldsEncode_injective (Except.ok.inj h)
             subst hf
             simp [decodeFields, operandInfo, *])
    · simp [encodeOperation, hty, SemanticUnit.nOperands] at h
  by_cases h3 : m = "ld"
  · subst h3
    rcases ops with _ | ⟨a, _ | ⟨b, _ | ⟨c, l⟩⟩⟩
    · simp [encodeOperation, hty, SemanticUnit.nOperands] at h
    · simp [encodeOperation, hty, SemanticUnit.nOperands] at h
    · cases a <;> cases b <;>
        simp [encodeOperation, hty, SemanticUnit.nOperands, SemanticUnit.operand,
          Operand.isDirectGpr, Operand.isIndirectGpr, Operand.isConstInt, Operand.integer,
          Operand.str, bind, Except.bind, pure, Except.pure] at h
      all_goals
        repeat' split at h
        all_goals first
          | cases h
          | (rename_i v id hr x r e
             have hr' : 0 ≤ v ∧ v ≤ 65535 := by omega
             have hf := fieldsEncode_injective (Except.ok.inj h)
             subst hf
             simp only [decodeFields, operandInfo, List.map, e, imm16_cast v hr'.1 hr'.2]
             simp)
    · simp [encodeOperation, hty, SemanticUnit.nOperands] at h
  by_cases h4 : m = "add"
  · subst h4
    rcases ops with _ | ⟨a, _ | ⟨b, _ | ⟨c, _ | ⟨d, l⟩⟩⟩⟩
    · simp [encodeOperation, hty, SemanticUnit.nOperands] at h
    · simp [encodeOperation, hty, SemanticUnit.nOperands] at h
    · simp [encodeOperation, hty, SemanticUnit.nOperands] at h
    · cases a <;> cases b <;> cases c <;>
        simp [encodeOperation, hty, SemanticUnit.nOperands, SemanticUnit.operand,
          Operand.isDirectGpr, Operand.isIndirectGpr, Operand.isDirectOrIndirectGpr,
          Operand.str, bind, Except.bind, pure, Except.pure] at h
      all_goals
        repeat' split at h
        all_goals first
          | cases h
          | (rename_i i0 i1 i2 x0 v0 e0 x1 v1 e1 x2 v2 e2
             have b0 := getGprNum_le e0
             have b1 := getGprNum_le e1
             have b2 := getGprNum_le e2
             have hf := fieldsEncode_injective (Except.ok.inj h)
             subst hf
             simp [decodeFields, operandInfo, e0, e1, e2]
             omega)
    · simp [encodeOperation, hty, SemanticUnit.nOperands] at h
  by_cases h5 : m = "nop"
  · subst h5
    rcases ops with _ | ⟨a, l⟩
    · simp [encodeOperation, hty, SemanticUnit.nOperands, pure, Except.pure] at h
      have hf := fieldsEncode_injective h
      subst hf
      simp [decodeFields]
    · simp [encodeOperation, hty, SemanticUnit.nOperands] at h
  · simp [encodeOperation, hty, h1, h2, h3, h4, h5] at h


theorem operandInfo_eq {a b : Operand} (h : operandInfo a = operandInfo b) :
    a.isDirectGpr = b.isDirectGpr ∧ a.isIndirectGpr = b.isIndirectGpr ∧
    a.isConstInt = b.isConstInt ∧
    (a.isDirectOrIndirectGpr = true → getGprNum a.str = getGprNum b.str) ∧
    (a.isConstInt = true → a.integer = b.integer) := by
  cases a <;> cases b <;>
    simp_all [operandInfo, Operand.isDirectGpr, Operand.isIndirectGpr, Operand.isConstInt,
      Operand.isDirectOrIndirectGpr, Operand.str, Operand.integer]

theorem operand_eq_getElem (op : SemanticUnit) (i : Nat) (hi : i < op.operands.length) :
    op.operand i = op.operands[i] := by
  unfold SemanticUnit.operand
  exact List.getD_eq_getElem _ _ hi

/-- C20. Two operations that are encoded with the same format and field
values have the same mnemonic, the same operand count and, at every operand
position, the same classification (direct, indirect, constant), the same
resolved register index at a register position and the same immediate value
at a constant position. -/
theorem fields_determine_operation (op1 op2 : SemanticUnit) (pc1 pc2 : Nat) (f : Operation)
    (h1 : ∀ encode, encodeOperation encode op1 pc1 = .ok (encode f))
    (h2 : ∀ encode, encodeOperation encode op2 pc2 = .ok (encode f)) :
    op1.str = op2.str ∧ op1.nOperands = op2.nOperands ∧
    ∀ i, i < op1.nOperands →
      (op1.operand i).isDirectGpr = (op2.operand i).isDirectGpr ∧
      (op1.operand i).isIndirectGpr = (op2.operand i).isIndirectGpr ∧
      (op1.operand i).isConstInt = (op2.operand i).isConstInt ∧
      ((op1.operand i).isDirectOrIndirectGpr = true →
        getGprNum (op1.operand i).str = getGprNum (op2.operand i).str) ∧
      ((op1.operand i).isConstInt = true →
        (op1.operand i).integer = (op2.operand i).integer) := by
  have s1 := fields_summary op1 pc1 f (h1 fieldsEncode)
  have s2 := fields_summary op2 pc2 f (h2 fieldsEncode)
  have hs : (op1.str, op1.operands.map operandInfo)
      = (op2.str, op2.operands.map operandInfo) := s1.trans s2.symm
  have hstr : op1.str = op2.str := congrArg Prod.fst hs
  have hops : op1.operands.map operandInfo = op2.operands.map operandInfo :=
    congrArg Prod.snd hs
  have hlen : op1.operands.length = op2.operands.length := by
    have := congrArg List.length hops
    simpa using this
  refine ⟨hstr, hlen, ?_⟩
  intro i hi
  have hi1 : i < op1.operands.length := hi
  have hi2 : i < op2.operands.length := hlen ▸ hi1
  have hget : (op1.operands.map operandInfo)[i]? = (op2.operands.map operandInfo)[i]? := by
    rw [hops]
  rw [List.getElem?_map, List.getElem?_map, List.getElem?_eq_getElem hi1,
    List.getElem?_eq_getElem hi2] at hget
  rw [operand_eq_getElem op1 i hi1, operand_eq_getElem op2 i hi2]
  exact operandInfo_eq (Option.some.inj hget)

/-- C20 at `add %r1, %r2, %r3` and `add %r01, %r02, %r03`: both are encoded
with the fields (NOP, ADD, NOP, 0, 0, 1, 2, 3), and they agree on mnemonic,
operand count, classifications and resolved indices. -/
theorem fields_determine_operation_witness :
    (mkOperation "add" [.directGpr "%r1", .directGpr "%r2", .directGpr "%r3"]).str
      = (mkOperation "add" [.directGpr "%r01", .directGpr "%r02", .directGpr "%r03"]).str ∧
    (mkOperation "add" [.directGpr "%r1", .directGpr "%r2", .directGpr "%r3"]).nOperands
      = (mkOperation "add" [.directGpr "%r01", .directGpr "%r02", .directGpr "%r03"]).nOperands ∧
    getGprNum "%r3" = getGprNum "%r03" := by
  have h := fields_determine_operation
    (mkOperation "add" [.directGpr "%r1", .directGpr "%r2", .directGpr "%r3"])
    (mkOperation "add" [.directGpr "%r01", .directGpr "%r02", .directGpr "%r03"]) 0 1
    (.setALU .NOP .ADD .NOP 0 0 1 2 3) (fun _ => rfl) (fun _ => rfl)
  exact ⟨h.1, h.2.1, (h.2.2 2 (by decide)).2.2.2.1 rfl⟩

end Mdsp
